import Mathlib

set_option maxRecDepth 100000
set_option maxHeartbeats 4000000

/-!
Shallow embedding of the resilient price-extraction pipeline of this
repository (src/main.py) together with proofs about its behaviour.

Modelling conventions:
* Python strings are Lean `String`s / `List Char`; all character classes
  are expressed through code points.  `str.lower()` is modelled for the
  Latin and Cyrillic ranges actually used by the program's keyword lists.
* Python `float` values produced by `float(...)` on the digit strings this
  program builds are modelled exactly as scaled decimals
  (`PyFloat`, meaning `mant / 10 ^ exp`); the program only ever compares
  such values against small constants and formats them to two decimal
  places, so the exact-decimal model is faithful on every reachable value
  (IEEE-754 double rounding only diverges beyond 15-17 significant digits).
* The external libraries (`requests`, `playwright`, BeautifulSoup's HTML
  parser, the JSON parser) are modelled at their interface: a fetched page
  is given both as its raw string (for the length checks) and as its parsed
  DOM tree; `application/ld+json` payloads appear as already-parsed records.
* The module-level mutable state (`LAST_GOOD_CACHE`, `SUSPICIOUS_PRICE_URLS`)
  is passed explicitly, and the single request being modelled reads one
  clock value `now` (within one request the code's successive `time.time()`
  calls differ only by the request's own latency).
-/

/-! ## Basic string helpers (Python semantics) -/

/-- Characters accepted by Python's `str.isspace` / regex `\s` (the
whitespace code points, including NBSP and narrow NBSP). -/
def isSpaceChar (c : Char) : Bool :=
  c.toNat = 32 || c.toNat = 9 || c.toNat = 10 || c.toNat = 13 ||
  c.toNat = 0x0B || c.toNat = 0x0C || (0x1C ≤ c.toNat && c.toNat ≤ 0x1F) ||
  c.toNat = 0x85 || c.toNat = 0xA0 || c.toNat = 0x1680 ||
  (0x2000 ≤ c.toNat && c.toNat ≤ 0x200A) || c.toNat = 0x2028 || c.toNat = 0x2029 ||
  c.toNat = 0x202F || c.toNat = 0x205F || c.toNat = 0x3000

/-- ASCII digit test, the `[0-9]` character class. -/
def isDigitC (c : Char) : Bool := 48 ≤ c.toNat && c.toNat ≤ 57

/-- Python `str.strip()`. -/
def pyStrip (l : List Char) : List Char :=
  ((l.dropWhile isSpaceChar).reverse.dropWhile isSpaceChar).reverse

def pyStripStr (s : String) : String := String.mk (pyStrip s.data)

/-- Python `str.lower()`, for the ASCII and Cyrillic ranges used by the
program's keyword lists. -/
def pyLowerChar (c : Char) : Char :=
  let n := c.toNat
  if 65 ≤ n ∧ n ≤ 90 then Char.ofNat (n + 32)
  else if 0x410 ≤ n ∧ n ≤ 0x42F then Char.ofNat (n + 32)
  else if 0x400 ≤ n ∧ n ≤ 0x40F then Char.ofNat (n + 80)
  else if n = 0x490 then Char.ofNat 0x491
  else c

def pyLower (l : List Char) : List Char := l.map pyLowerChar

def pyLowerStr (s : String) : String := String.mk (pyLower s.data)

/-- Python substring test `needle in hay` (true for the empty needle). -/
def listContains : List Char → List Char → Bool
  | h, n =>
    if n.isPrefixOf h then true
    else
      match h with
      | [] => false
      | _ :: t => listContains t n

def strContains (hay needle : String) : Bool := listContains hay.data needle.data

/-- Membership of a single character. -/
def hasChar (l : List Char) (c : Char) : Bool := l.any (fun x => x = c)

/-- Python `str.split()` (split on whitespace runs, dropping empty parts). -/
def splitWsAux : ℕ → List Char → List (List Char)
  | 0, _ => []
  | fuel + 1, l =>
    match l.dropWhile isSpaceChar with
    | [] => []
    | c :: rest =>
      let w := (c :: rest).takeWhile (fun x => !isSpaceChar x)
      w :: splitWsAux fuel ((c :: rest).drop w.length)

def splitWs (l : List Char) : List (List Char) := splitWsAux l.length l

/-- Python `str.replace(pat, "")` (all non-overlapping occurrences,
scanned left to right). -/
def pyReplaceAux (pat : List Char) : ℕ → List Char → List Char
  | 0, s => s
  | fuel + 1, s =>
    match s with
    | [] => []
    | c :: rest =>
      if pat ≠ [] ∧ pat.isPrefixOf (c :: rest) then
        pyReplaceAux pat fuel ((c :: rest).drop pat.length)
      else c :: pyReplaceAux pat fuel rest

def pyReplaceDel (s pat : List Char) : List Char := pyReplaceAux pat s.length s

/-- Python truthiness of an optional string. -/
def optTruthy : Option String → Bool
  | some s => s ≠ ""
  | none => false

/-- Python `x or y` on optional strings ("" is falsy). -/
def pyOrO (a b : Option String) : Option String :=
  match a with
  | some s => if s ≠ "" then some s else b
  | none => b

/-- Python `x or d` where `d` is a (truthy) default string. -/
def pyOr (a : Option String) (d : String) : String :=
  match a with
  | some s => if s ≠ "" then s else d
  | none => d

/-! ## Numeric normalizer (`clean_price_text`, src/main.py lines 108-151) -/

def digitVal (c : Char) : ℕ := c.toNat - 48

/-- Value of a decimal digit string (most significant digit first). -/
def digitsVal (l : List Char) : ℕ := l.foldl (fun a c => a * 10 + digitVal c) 0

/-- Decimal digit string of a natural number; `natDigitsAux` is fuel-driven
so that it stays kernel-computable, with fuel `n + 1` always sufficient. -/
def natDigitsAux : ℕ → ℕ → List Char
  | 0, _ => []
  | fuel + 1, n =>
    if n < 10 then [Char.ofNat (48 + n)]
    else natDigitsAux fuel (n / 10) ++ [Char.ofNat (48 + n % 10)]

/-- Python `str(n)` for a natural number. -/
def natDigits (n : ℕ) : List Char := natDigitsAux (n + 1) n

/-- Exact model of the Python `float` values manipulated by this program:
the decimal `mant / 10 ^ exp`. -/
structure PyFloat where
  mant : ℤ
  exp : ℕ
deriving DecidableEq, Repr

/-- Numeric equality of two `PyFloat`s (cross multiplication). -/
def pyfEqv (a b : PyFloat) : Prop := a.mant * (10 : ℤ) ^ b.exp = b.mant * (10 : ℤ) ^ a.exp

instance (a b : PyFloat) : Decidable (pyfEqv a b) := by
  unfold pyfEqv; infer_instance

/-- Python `s.split(".")`. -/
def splitDot : List Char → List (List Char)
  | [] => [[]]
  | c :: rest =>
    if c = '.' then [] :: splitDot rest
    else
      match splitDot rest with
      | h :: t => (c :: h) :: t
      | [] => [[c]]

/-- Python `float(s)` restricted to the sign/digits/dot strings this program
produces (`ValueError` is `none`). -/
def parseFloat (l : List Char) : Option PyFloat :=
  let signRest : ℤ × List Char :=
    match l with
    | c :: r => if c = '-' then (-1, r) else if c = '+' then (1, r) else (1, c :: r)
    | [] => (1, [])
  match splitDot signRest.2 with
  | [a] =>
    if a ≠ [] ∧ a.all isDigitC then some ⟨signRest.1 * (digitsVal a : ℤ), 0⟩ else none
  | [a, b] =>
    if (a ≠ [] ∨ b ≠ []) ∧ a.all isDigitC ∧ b.all isDigitC then
      some ⟨signRest.1 * ((digitsVal a : ℤ) * (10 : ℤ) ^ b.length + (digitsVal b : ℤ)), b.length⟩
    else none
  | _ => none

/-- Python `val.is_integer()`. -/
def PyFloat.isInt (v : PyFloat) : Bool := v.mant % ((10 : ℤ) ^ v.exp) = 0

/-- Round half to even of `n / d` (`d > 0`), as done by Python's
fixed-point formatting on the exact decimal values reached here. -/
def rheNat (n d : ℕ) : ℕ :=
  let q := n / d
  let r := n % d
  if r * 2 < d then q
  else if r * 2 > d then q + 1
  else if q % 2 = 0 then q else q + 1

/-- Python `("{:.2f}".format(val)).rstrip("0").rstrip(".")` for a positive
non-integer value. -/
def formatTwo (v : PyFloat) : List Char :=
  let n := rheNat (v.mant.toNat * 100) (10 ^ v.exp)
  let ip := n / 100
  let fr := n % 100
  if fr = 0 then natDigits ip
  else if fr % 10 = 0 then natDigits ip ++ ['.', Char.ofNat (48 + fr / 10)]
  else natDigits ip ++ ['.', Char.ofNat (48 + fr / 10), Char.ofNat (48 + fr % 10)]

/-- Character class of the number-matching regex
`[-+]?[0-9\.\,\s  ]{1,50}`. -/
def numClass (c : Char) : Bool := isDigitC c || c = '.' || c = ',' || isSpaceChar c

/-- Leftmost match of `[-+]?[0-9\.\,\s  ]{1,50}` (greedy). -/
def findNumMatch : List Char → Option (List Char)
  | [] => none
  | c :: rest =>
    if numClass c then some (((c :: rest).takeWhile numClass).take 50)
    else if c = '-' ∨ c = '+' then
      match rest with
      | r :: _ =>
        if numClass r then some (c :: ((rest.takeWhile numClass).take 50))
        else findNumMatch rest
      | [] => none
    else findNumMatch rest

/-- Lookahead part of `sep\d{3}(?!\d)`. -/
def restStarts3Digits : List Char → Bool
  | d1 :: d2 :: d3 :: rest =>
    isDigitC d1 && isDigitC d2 && isDigitC d3 &&
      (match rest with
       | r :: _ => !isDigitC r
       | [] => true)
  | _ => false

/-- Python `re.search(r"sep\d{3}(?!\d)", s)` succeeds. -/
def sepThousandsTest (sep : Char) : List Char → Bool
  | [] => false
  | c :: rest => (c = sep && restStarts3Digits rest) || sepThousandsTest sep rest

/-- `num_s.rfind(",") > num_s.rfind(".")`, assuming both characters occur. -/
def lastSepCmp (l : List Char) : Bool :=
  let rl := l.reverse
  (rl.takeWhile (fun c => c ≠ ',')).length < (rl.takeWhile (fun c => c ≠ '.')).length

def countDots (l : List Char) : ℕ := l.foldl (fun a c => if c = '.' then a + 1 else a) 0

/-- The `normalized.count(".") > 1` repair: keep only the last dot. -/
def multiDotFix (l : List Char) : List Char :=
  let parts := splitDot l
  (parts.dropLast).foldr (· ++ ·) [] ++ '.' :: ((parts.getLast?).getD [])

def nbspToSpace (c : Char) : Char := if c.toNat = 0xA0 then ' ' else c

/-- Separator disambiguation (src/main.py lines 118-134): with both
separators the rightmost one becomes the decimal point; a lone separator
is a thousands mark exactly when `sep\d{3}(?!\d)` matches. -/
def normSeparators (num1 : List Char) : List Char :=
  if hasChar num1 ',' ∧ hasChar num1 '.' then
    if lastSepCmp num1 then
      (num1.filter (fun c => c ≠ '.')).map (fun c => if c = ',' then '.' else c)
    else num1.filter (fun c => c ≠ ',')
  else if hasChar num1 ',' then
    if sepThousandsTest ',' num1 then num1.filter (fun c => c ≠ ',')
    else num1.map (fun c => if c = ',' then '.' else c)
  else if hasChar num1 '.' then
    if sepThousandsTest '.' num1 then num1.filter (fun c => c ≠ '.')
    else num1
  else num1

/-- The class kept by `re.sub(r"[^\d\.\-+]", "", ...)`. -/
def keepNumChar (c : Char) : Bool := isDigitC c || c = '.' || c = '-' || c = '+'

/-- Rejection of non-positive values and final formatting
(src/main.py lines 145-151). -/
def finishVal (v : PyFloat) : Option (List Char) :=
  if v.mant ≤ 0 then none
  else if v.isInt then some (natDigits (v.mant.toNat / 10 ^ v.exp))
  else some (formatTwo v)

/-- Normalization of the matched numeric substring
(src/main.py lines 117-151). -/
def cleanNum (num1 : List Char) : Option (List Char) :=
  let norm1 := (normSeparators num1).filter keepNumChar
  if norm1 = [] then none
  else
    let norm2 := if countDots norm1 > 1 then multiDotFix norm1 else norm1
    match parseFloat norm2 with
    | none => none
    | some v => finishVal v

def cleanCore (l0 : List Char) : Option (List Char) :=
  match findNumMatch ((pyStrip l0).map nbspToSpace) with
  | none => none
  | some g => cleanNum ((pyStrip g).filter (fun c => c ≠ ' '))

/-- `clean_price_text` (src/main.py lines 108-151): locale-aware price
normalizer.  Returns the canonical decimal string or `none`. -/
def clean_price_text (text : String) : Option String :=
  if text = "" then none else (cleanCore text.data).map String.mk

/-- `clean_price_text` lifted to `Optional[str]` arguments. -/
def cleanO : Option String → Option String
  | none => none
  | some s => clean_price_text s

/-! ## Binary64 rounding of `float()` (IEEE-754 round half to even)

`parseFloat` reads off the exact decimal value of a numeric literal;
CPython's `float()` then rounds that value to the nearest binary64
double.  `clean_price_text` above evaluates `float()` exactly, which is
faithful whenever the value at hand is representable as a double;
`clean_price_text_fl` below makes the rounding explicit.  `findNumMatch`
caps the matched numeric substring at 50 characters, so every value
reaching `float()` in this program lies in `[10^-49, 10^50)` (or is its
negation, or zero), well inside the normal binary64 range: no overflow,
underflow or subnormals occur, and the rounding below is exact on that
whole domain. -/

/-- Floor of the base-2 logarithm, fuel-driven (`fuel ≥ n` always
suffices). -/
def log2F : ℕ → ℕ → ℕ
  | 0, _ => 0
  | fuel + 1, n => if n ≤ 1 then 0 else 1 + log2F fuel (n / 2)

/-- Strip factors of 10 shared by a positive decimal significand and its
fractional length: the canonical representative of the value
`N / 10 ^ e` (value-preserving, so the rounding below is unchanged). -/
def canonDec : ℕ → ℕ → ℕ → ℕ × ℕ
  | 0, N, e => (N, e)
  | fuel + 1, N, e =>
    match e with
    | 0 => (N, 0)
    | e2 + 1 => if N % 10 = 0 then canonDec fuel (N / 10) e2 else (N, e2 + 1)

/-- Round the positive value `N0 / 10 ^ e0` to the nearest binary64
double, ties to even, returned as significand and exponent `(m, k)` with
value `m * 2 ^ k` and `2 ^ 52 ≤ m < 2 ^ 53`. -/
def floatOfPos (N0 e0 : ℕ) : ℕ × ℤ :=
  let c := canonDec e0 N0 e0
  let N := c.1
  let e := c.2
  let B := 4 * e + 60
  let s := N * 2 ^ B / 10 ^ e
  let t : ℤ := (log2F s s : ℤ) - B
  let k : ℤ := t - 52
  let m := if 0 ≤ k then rheNat N (10 ^ e * 2 ^ k.toNat)
           else rheNat (N * 2 ^ (-k).toNat) (10 ^ e)
  if m = 2 ^ 53 then (2 ^ 52, k + 1) else (m, k)

/-- The exact decimal value of the signed double `± m * 2 ^ k`
(`2 ^ -j = 5 ^ j / 10 ^ j`). -/
def dblToPyFloat (sign : ℤ) (p : ℕ × ℤ) : PyFloat :=
  if 0 ≤ p.2 then ⟨sign * ((p.1 * 2 ^ p.2.toNat : ℕ) : ℤ), 0⟩
  else ⟨sign * ((p.1 * 5 ^ (-p.2).toNat : ℕ) : ℤ), (-p.2).toNat⟩

/-- Python `float(s)`: the exact decimal read by `parseFloat`, rounded to
the nearest binary64 double. -/
def pyRound (v : PyFloat) : PyFloat :=
  if v.mant = 0 then ⟨0, 0⟩
  else if v.mant < 0 then dblToPyFloat (-1) (floatOfPos (-v.mant).toNat v.exp)
  else dblToPyFloat 1 (floatOfPos v.mant.toNat v.exp)

/-- `cleanNum` with the binary64 rounding of `val = float(normalized)`
(src/main.py line 137) made explicit. -/
def cleanNumFl (num1 : List Char) : Option (List Char) :=
  let norm1 := (normSeparators num1).filter keepNumChar
  if norm1 = [] then none
  else
    let norm2 := if countDots norm1 > 1 then multiDotFix norm1 else norm1
    match parseFloat norm2 with
    | none => none
    | some v => finishVal (pyRound v)

def cleanCoreFl (l0 : List Char) : Option (List Char) :=
  match findNumMatch ((pyStrip l0).map nbspToSpace) with
  | none => none
  | some g => cleanNumFl ((pyStrip g).filter (fun c => c ≠ ' '))

/-- `clean_price_text` with `float()` modelled as a binary64 double. -/
def clean_price_text_fl (text : String) : Option String :=
  if text = "" then none else (cleanCoreFl text.data).map String.mk

/-! ## Keyword lists and small predicates (src/main.py lines 90-162, 358-372) -/

def PLACEHOLDER_KEYWORDS : List String :=
  ["зачекайте", "трохи", "завантаж", "loading", "please wait", "очікуйте", "завантаження",
   "loading...", "завантажу", "шукаємо", "будь ласка зачекайте", "будь ласка, зачекайте"]

def CURRENCY_KEYWORDS : List String :=
  ["₴", "грн", "uah", "$", "usd", "€", "eur", "руб", "₽"]

/-- Word characters of Python's regex `\b` boundary (ASCII letters/digits,
underscore, and the Cyrillic block used by the keywords). -/
def isWordChar (c : Char) : Bool :=
  isDigitC c || (65 ≤ c.toNat && c.toNat ≤ 90) || (97 ≤ c.toNat && c.toNat ≤ 122) ||
  c = '_' || (0x400 ≤ c.toNat && c.toNat ≤ 0x4FF)

def boundaryBefore : Option Char → Bool
  | none => true
  | some p => !isWordChar p

def boundaryAfter : List Char → Bool
  | [] => true
  | c :: _ => !isWordChar c

/-- Python `re.search(r"\bw\b", t)` for a literal word `w`. -/
def wbSearch (w : List Char) : Option Char → List Char → Bool
  | prev, [] => boundaryBefore prev && w = []
  | prev, c :: rest =>
    (boundaryBefore prev && w.isPrefixOf (c :: rest) && boundaryAfter ((c :: rest).drop w.length))
      || wbSearch w (some c) rest

/-- `contains_currency` (src/main.py lines 97-106).  The word-boundary regex
branch is kept even though a `\b`-delimited hit implies a plain substring
hit, i.e. it can never fire on its own. -/
def contains_currency (text : String) : Bool :=
  if text = "" then false
  else
    let t := pyLower text.data
    CURRENCY_KEYWORDS.any (fun k => listContains t k.data) ||
      (["грн", "uah", "usd", "eur"].any (fun k => wbSearch k.data none t))

/-- `text_has_digits_and_not_placeholder` (src/main.py lines 153-162). -/
def text_has_digits_and_not_placeholder (text : String) : Bool :=
  if text = "" then false
  else
    let t := pyLower text.data
    if !(t.any isDigitC) then false
    else !(PLACEHOLDER_KEYWORDS.any (fun kw => listContains t kw.data))

/-- `is_valid_name_candidate` (src/main.py lines 358-372). -/
def is_valid_name_candidate (text : String) : Bool :=
  if text = "" then false
  else
    let t := pyStrip text.data
    let low := pyLower t
    if PLACEHOLDER_KEYWORDS.any (fun kw => listContains low kw.data) then false
    else if t ≠ [] ∧ t.all (fun c => c = '.' || c = '-' || c = ',' || isSpaceChar c) then false
    else if listContains t ['.', '.', '.'] then false
    else decide (3 ≤ (t.filter (fun c => !isSpaceChar c)).length)

/-! ## Trust / suspicion layer (src/main.py lines 393-467) -/

def SUSPICIOUS_THRESHOLD : ℕ := 3

/-- The `SUSPICIOUS_PRICE_URLS` registry: normalized price string to the
set (list without duplicates) of URLs that produced it. -/
abbrev Registry := List (String × List String)

def regLookup (reg : Registry) (p : String) : Option (List String) :=
  (reg.find? (fun e => e.1 = p)).map (·.2)

/-- `record_suspicious_price` (src/main.py lines 414-418). -/
def record_suspicious_price (price_str : Option String) (url : String) (reg : Registry) :
    Registry :=
  match price_str with
  | none => reg
  | some ps =>
    if ps = "" then reg
    else
      match regLookup reg ps with
      | some urls =>
        if urls.contains url then reg
        else reg.map (fun e => if e.1 = ps then (e.1, url :: e.2) else e)
      | none => (ps, [url]) :: reg

/-- `price_marked_globally_suspicious` (src/main.py lines 420-422). -/
def price_marked_globally_suspicious (reg : Registry) (price_str : String) : Bool :=
  match regLookup reg price_str with
  | some urls => SUSPICIOUS_THRESHOLD ≤ urls.length
  | none => false

/-- The netloc component of `urllib.parse.urlparse` (scheme split at a valid
scheme prefix, then the `//authority` part up to `/`, `?` or `#`). -/
def netlocOf (url : String) : String :=
  let l := url.data
  let rest :=
    match l with
    | c :: _ =>
      if (65 ≤ c.toNat && c.toNat ≤ 90) || (97 ≤ c.toNat && c.toNat ≤ 122) then
        let run := l.takeWhile (fun x =>
          isDigitC x || (65 ≤ x.toNat && x.toNat ≤ 90) || (97 ≤ x.toNat && x.toNat ≤ 122) ||
          x = '+' || x = '-' || x = '.')
        match l.drop run.length with
        | ':' :: r => r
        | _ => l
      else l
    | [] => l
  match rest with
  | '/' :: '/' :: r =>
    String.mk (r.takeWhile (fun c => c ≠ '/' && c ≠ '?' && c ≠ '#'))
  | _ => ""

/-- `domain_from_url` (src/main.py lines 400-405): lowercased netloc with
every occurrence of the substring `"www."` removed (`str.replace`).  The
`urlparse` call never raises on the URL strings modelled here, so the
`except` branch returning `None` is unreachable. -/
def domain_from_url (url : String) : Option String :=
  some (String.mk (pyReplaceDel (pyLower (netlocOf url).data) "www.".data))

/-- Tail groups `(\.[a-z]{2,})+$` of the domain-shape regex. -/
def domGroupsAux : ℕ → List Char → Bool
  | 0, _ => false
  | fuel + 1, l =>
    match l with
    | '.' :: rest =>
      let al := rest.takeWhile (fun c => 97 ≤ c.toNat && c.toNat ≤ 122)
      let rem := rest.drop al.length
      decide (2 ≤ al.length) && (rem.isEmpty || domGroupsAux fuel rem)
    | _ => false

/-- `is_domain_like` (src/main.py lines 407-412):
`re.match(r"^[a-z0-9\-]+(\.[a-z]{2,})+$", text.strip().lower())`. -/
def is_domain_like (text : String) : Bool :=
  if text = "" then false
  else
    let t := pyLower (pyStrip text.data)
    let hd := t.takeWhile (fun c =>
      (97 ≤ c.toNat && c.toNat ≤ 122) || isDigitC c || c = '-')
    decide (1 ≤ hd.length) && domGroupsAux t.length (t.drop hd.length)

/-- `is_suspect_result` (src/main.py lines 424-467).  The `html_snippet`
parameter of the original is unused by its body and therefore omitted. -/
def is_suspect_result (reg : Registry) (url : String) (name : Option String)
    (price_text : Option String) : Bool :=
  let dom := domain_from_url url
  let nameHit :=
    match name with
    | some nm =>
      if nm ≠ "" then
        let n := pyLower (pyStrip nm.data)
        (match dom with
         | some d => d ≠ "" && listContains n d.data
         | none => false) ||
        (is_domain_like (String.mk n) && (splitWs n).length = 1)
      else false
    | none => false
  if nameHit then true
  else
    match price_text with
    | none => true
    | some pt =>
      if pt = "" then true
      else
        match clean_price_text pt with
        | none => true
        | some cp =>
          match parseFloat cp.data with
          | none => true
          | some num =>
            if price_marked_globally_suspicious reg cp then true
            else if !contains_currency pt && num.mant < 20 * (10 : ℤ) ^ num.exp then true
            else false

/-! ## DOM model (the BeautifulSoup view of a parsed document) -/

/-- The attributes of an HTML tag that this program reads.  `classes` is the
(space-split) multi-valued `class` attribute; `nameAttr` is the HTML `name`
attribute (distinct from the tag name). -/
structure TagInfo where
  name : String := ""
  classes : List String := []
  idAttr : Option String := none
  itemprop : Option String := none
  property : Option String := none
  nameAttr : Option String := none
  content : Option String := none
  value : Option String := none
  dataPrice : Option String := none
  dataProductPrice : Option String := none
  titleAttr : Option String := none
  altAttr : Option String := none
deriving DecidableEq, Repr

inductive Node where
  | elem : TagInfo → List Node → Node
  | text : String → Node

-- BeautifulSoup tag equality: `==` compares name, attributes and contents by value.
mutual
def nodeEq : Node → Node → Bool
  | .elem t1 c1, .elem t2 c2 => decide (t1 = t2) && listNodeEq c1 c2
  | .text s1, .text s2 => s1 = s2
  | _, _ => false
def listNodeEq : List Node → List Node → Bool
  | [], [] => true
  | a :: as, b :: bs => nodeEq a b && listNodeEq as bs
  | _, _ => false
end

/-- A tag reference: the tag, its children, and its ancestor chain
(immediate parent first), as navigated via `.parent`. -/
structure EInfo where
  tag : TagInfo
  children : List Node
  ancestors : List (TagInfo × List Node)

-- All element descendants in document order (`find_all()`), each with its ancestor chain.
mutual
def nodeElems (anc : List (TagInfo × List Node)) : Node → List EInfo
  | .elem t ch => ⟨t, ch, anc⟩ :: listElems ((t, ch) :: anc) ch
  | .text _ => []
def listElems (anc : List (TagInfo × List Node)) : List Node → List EInfo
  | [] => []
  | n :: ns => nodeElems anc n ++ listElems anc ns
end

-- The raw strings of a subtree in document order.
mutual
def nodeTexts : Node → List String
  | .elem _ ch => listTexts ch
  | .text s => [s]
def listTexts : List Node → List String
  | [] => []
  | n :: ns => nodeTexts n ++ listTexts ns
end

def joinSepAux (sep : String) : List String → String
  | [] => ""
  | [s] => s
  | s :: rest => s ++ sep ++ joinSepAux sep rest

/-- `get_text(" ", strip=True)`: strip each string, drop empties, join
with a single space. -/
def getTextSepN (n : Node) : String :=
  joinSepAux " " (((nodeTexts n).map pyStripStr).filter (fun s => s ≠ ""))

/-- `get_text()`: concatenation of the raw strings. -/
def getTextRawN (n : Node) : String := String.join (nodeTexts n)

def einfoNode (e : EInfo) : Node := .elem e.tag e.children

def eGetTextSep (e : EInfo) : String := getTextSepN (einfoNode e)

/-- `.string` of a tag: its single text child, if it has exactly one
child and that child is a string. -/
def tagString (e : EInfo) : Option String :=
  match e.children with
  | [.text s] => some s
  | _ => none

/-- A parsed document: the top-level nodes (children of the synthetic
`[document]` root), plus the already-parsed `application/ld+json`
payloads that `extract_ld_json` would yield from its script tags. -/
structure LdOffers where
  price : Option String := none
  psPrice : Option String := none
  priceCurrency : Option String := none
  psCurrency : Option String := none
  availability : Option String := none
deriving DecidableEq, Repr

structure LdItem where
  nameLd : Option String := none
  headline : Option String := none
  offers : Option LdOffers := none
  priceLd : Option String := none
deriving DecidableEq, Repr

def docRootTag : TagInfo := { name := "[document]" }

structure Doc where
  kids : List Node
  ld : List LdItem := []

def docNode (d : Doc) : Node := .elem docRootTag d.kids

/-- `soup.find_all()` in document order (excluding the document itself). -/
def docElems (d : Doc) : List EInfo := listElems [(docRootTag, d.kids)] d.kids

/-- `price_from_ld` (src/main.py lines 183-196). -/
def price_from_ld (it : LdItem) : Option String :=
  let fromOffers : Option String :=
    match it.offers with
    | some o =>
      match pyOrO o.price o.psPrice with
      | some p =>
        if p ≠ "" then
          some (p ++ (match pyOrO o.priceCurrency o.psCurrency with
                      | some c => if c ≠ "" then " " ++ c else ""
                      | none => ""))
        else none
      | none => none
    | none => none
  match fromOffers with
  | some r => some r
  | none => it.priceLd

/-- `tag_text_or_attr` (src/main.py lines 205-216). -/
def tag_text_or_attr (e : EInfo) : String :=
  if e.tag.name = "meta" then
    match e.tag.content with
    | some c => if c ≠ "" then c else (match e.tag.value with
                                       | some v => if v ≠ "" then v else ""
                                       | none => "")
    | none => (match e.tag.value with
               | some v => if v ≠ "" then v else ""
               | none => "")
  else
    let attrs := [e.tag.dataPrice, e.tag.dataProductPrice, e.tag.content, e.tag.value,
                  e.tag.titleAttr, e.tag.altAttr]
    match attrs.findSome? (fun a => match a with
                                    | some s => if s ≠ "" then some s else none
                                    | none => none) with
    | some s => s
    | none => eGetTextSep e

/-- The joined class/id string used by the scoring regexes:
`" ".join(filter(None, [" ".join(classes), id or ""]))`. -/
def clsIdString (t : TagInfo) : String :=
  joinSepAux " " (([joinSepAux " " t.classes, t.idAttr.getD ""]).filter (fun s => s ≠ ""))

def PRICE_CLASS_PAT : List String :=
  ["price", "cost", "цiн", "ціна", "price__", "product-price", "sale", "amount", "sum",
   "грн", "uah", "price--", "product__price", "price-old", "old-price"]

def REVIEW_PAT : List String :=
  ["відгук", "reviews", "rating", "шт", "pcs", "вага", "кг", "грам"]

/-- `score_price_candidate` (src/main.py lines 218-235). -/
def score_price_candidate (e : EInfo) (text : String) : ℤ :=
  let t := pyLower text.data
  let s1 : ℤ := if contains_currency (String.mk t) then 200 else 0
  let cls := pyLower (clsIdString e.tag).data
  let s2 : ℤ := if PRICE_CLASS_PAT.any (fun p => listContains cls p.data) then 120 else 0
  let s3 : ℤ :=
    match e.tag.itemprop with
    | some ip => if ip ≠ "" ∧ listContains (pyLower ip.data) "price".data then 100 else 0
    | none => 0
  let s4 : ℤ :=
    if e.tag.name = "meta" ∧
       listContains (pyLower ((e.tag.property).getD "").data) "price".data then 80 else 0
  let s5 : ℤ := if (splitWs text.data).length ≤ 4 then 10 else 0
  let s6 : ℤ := if REVIEW_PAT.any (fun p => listContains t p.data) then -80 else 0
  s1 + s2 + s3 + s4 + s5 + s6

/-! ## The raw-text price regexes (src/main.py lines 292, 297, 841, 847) -/

/-- Greedy count of `(?:[  ][0-9]{3})` repetitions. -/
def sepReps : List Char → ℕ
  | s :: a :: b :: c :: rest =>
    if (s = ' ' ∨ s.toNat = 0xA0) ∧ isDigitC a ∧ isDigitC b ∧ isDigitC c then
      1 + sepReps rest
    else 0
  | _ => 0

/-- Lengths consumable by `(?:[.,][0-9]{1,2})?` in backtracking order
(two digits, one digit, none). -/
def decOpts (l : List Char) : List ℕ :=
  match l with
  | s :: d1 :: d2 :: _ =>
    if (s = '.' ∨ s = ',') ∧ isDigitC d1 then
      if isDigitC d2 then [3, 2, 0] else [2, 0]
    else [0]
  | [s, d1] => if (s = '.' ∨ s = ',') ∧ isDigitC d1 then [2, 0] else [0]
  | _ => [0]

/-- Candidate match lengths of `[0-9]{1,3}(?:[  ][0-9]{3})*(?:[.,][0-9]{1,2})?`
at the head of `l`, in regex backtracking order. -/
def numCandLens (l : List Char) : List ℕ :=
  let dr := (l.takeWhile isDigitC).length
  let d1s := if 3 ≤ dr then [3, 2, 1] else if dr = 2 then [2, 1] else if dr = 1 then [1] else []
  d1s.foldr (fun d1 acc =>
    let rest1 := l.drop d1
    let rmax := sepReps rest1
    ((List.range (rmax + 1)).reverse.foldr (fun r acc2 =>
      let rest2 := rest1.drop (4 * r)
      ((decOpts rest2).map (fun dl => d1 + 4 * r + dl)) ++ acc2) []) ++ acc) []

def CURRENCY_TOKENS : List String :=
  ["грн", "₴", "uah", "usd", "$", "€", "eur", "руб", "₽"]

/-- After the number: `\s*` then one of the currency alternatives. -/
def currencyAfter (l : List Char) : Bool :=
  let l2 := l.dropWhile isSpaceChar
  CURRENCY_TOKENS.any (fun tk => tk.data.isPrefixOf l2)

/-- `re.search` for pattern `([0-9]{1,3}(?:[  ][0-9]{3})*(?:[.,][0-9]{1,2})?)\s*(грн|₴|uah|usd|\$|€|eur|руб|₽)`
(case-insensitively, so run on the lowered text); returns group 1. -/
def searchCurrencyNum : List Char → Option (List Char)
  | [] => none
  | c :: rest =>
    match (numCandLens (c :: rest)).find? (fun len => currencyAfter ((c :: rest).drop len)) with
    | some len => some ((c :: rest).take len)
    | none => searchCurrencyNum rest

/-- `re.search` for the bare pattern `([0-9]{1,3}(?:[  ][0-9]{3})*(?:[.,][0-9]{1,2})?)`;
returns (group, start, end). -/
def searchNumBAux : ℕ → List Char → Option (List Char × ℕ × ℕ)
  | _, [] => none
  | pos, c :: rest =>
    match (numCandLens (c :: rest)).head? with
    | some len => some ((c :: rest).take len, pos, pos + len)
    | none => searchNumBAux (pos + 1) rest

def searchNumB (l : List Char) : Option (List Char × ℕ × ℕ) := searchNumBAux 0 l

/-- `re.search` for `[0-9]+(?:[  ][0-9]{3})*(?:[.,][0-9]{1,2})?`
(unbounded leading digit run); returns (match, start, end). -/
def searchNumCAux : ℕ → List Char → Option (List Char × ℕ × ℕ)
  | _, [] => none
  | pos, c :: rest =>
    let dr := ((c :: rest).takeWhile isDigitC).length
    if dr = 0 then searchNumCAux (pos + 1) rest
    else
      let rest1 := (c :: rest).drop dr
      let r := sepReps rest1
      let dl := ((decOpts (rest1.drop (4 * r))).head?).getD 0
      let len := dr + 4 * r + dl
      some ((c :: rest).take len, pos, pos + len)

def searchNumC (l : List Char) : Option (List Char × ℕ × ℕ) := searchNumCAux 0 l

/-- Python slice `full_text[max(0,start-40):end+40]`. -/
def surroundingSlice (l : List Char) (s e : ℕ) : List Char :=
  (l.drop (s - 40)).take ((e + 40) - (s - 40))

/-! ## Heuristic price extraction (`find_best_price`, src/main.py lines 237-307) -/

def metaPriceProps : List String := ["product:price:amount", "og:price:amount"]

def allowedPriceTags : List String :=
  ["span", "p", "div", "strong", "b", "li", "a", "td", "em", "meta"]

/-- The price-class regex of the admissibility check (src/main.py line 273). -/
def PRICE_CLASS_PAT2 : List String :=
  ["price", "product-price", "price__", "цiн", "ціна", "грн", "uah", "cost", "amount",
   "sum", "sale", "old-price"]

/-- Old-price search among the descendants of the accepted candidate's
parent (src/main.py lines 277-289).  The third conjunct of the original
condition is the constant `True` (a conditional expression with a literal
`False` test), so any sibling normalizing to a different value is taken. -/
def oldPriceOf (e : EInfo) (bestCp : String) : Option String :=
  match e.ancestors with
  | [] => none
  | (_, pch) :: _ =>
    (listElems [] pch).findSome? (fun c =>
      if nodeEq (Node.elem c.tag c.children) (Node.elem e.tag e.children) then none
      else
        let t := tag_text_or_attr c
        if t = "" then none
        else if !(t.data.any isDigitC) then none
        else
          match clean_price_text t with
          | some op => if op ≠ bestCp then some op else none
          | none => none)

/-- The admissibility test of the ranked-candidate loop (src/main.py
lines 266-276): a candidate is skipped iff it has no currency marker, its
numeric value is below 20, and its class/id carries no price keyword. -/
def candAdmissible (c : EInfo × String × String × ℤ) : Bool :=
  let num := parseFloat c.2.2.1.data
  let has_currency := contains_currency c.2.1 || contains_currency (tag_text_or_attr c.1)
  let cls := pyLower (clsIdString c.1.tag).data
  let has_price_class := PRICE_CLASS_PAT2.any (fun p => listContains cls p.data)
  !(!has_currency &&
    (match num with
     | some n => decide (n.mant < 20 * (10 : ℤ) ^ n.exp)
     | none => false) &&
    !has_price_class)

/-- Stable insertion into a score-descending list (a candidate is placed
before existing candidates of equal score only if it precedes them, which
it never does when inserting right-to-left, so original order among equal
scores is preserved -- the behaviour of Python's stable
`sorted(..., reverse=True)`). -/
def insertByScore (c : EInfo × String × String × ℤ) :
    List (EInfo × String × String × ℤ) → List (EInfo × String × String × ℤ)
  | [] => [c]
  | x :: xs => if x.2.2.2 ≤ c.2.2.2 then c :: x :: xs else x :: insertByScore c xs

/-- `sorted(candidates, key=lambda x: x[3], reverse=True)` (stable). -/
def sortCandsDesc : List (EInfo × String × String × ℤ) → List (EInfo × String × String × ℤ)
  | [] => []
  | c :: rest => insertByScore c (sortCandsDesc rest)

/-- The ranked-candidate loop: first admissible candidate wins. -/
def pickCand : List (EInfo × String × String × ℤ) → Option (String × Option String × EInfo)
  | [] => none
  | c :: rest =>
    if candAdmissible c then some (c.2.2.1, oldPriceOf c.1 c.2.2.1, c.1)
    else pickCand rest

/-- The `m2` raw-text fallback of `find_best_price` (src/main.py
lines 297-305).  `float` on a `clean_price_text` output never fails
(proved below), so that branch is modelled as the no-price result. -/
def priceFallbackB (full : List Char) : Option String × Option String × Option EInfo :=
  match searchNumB full with
  | some (g, s, e) =>
    match clean_price_text (String.mk g) with
    | some cp =>
      match parseFloat cp.data with
      | some num =>
        let surrounding := surroundingSlice full s e
        if num.mant < 20 * (10 : ℤ) ^ num.exp ∧ !contains_currency (String.mk surrounding) then
          (none, none, none)
        else (some cp, none, none)
      | none => (none, none, none)
    | none => (none, none, none)
  | none => (none, none, none)

/-- `find_best_price` (src/main.py lines 237-307). -/
def find_best_price (d : Doc) : Option String × Option String × Option EInfo :=
  let elems := docElems d
  match elems.findSome? (fun e =>
      if e.tag.name = "meta" ∧
         metaPriceProps.contains (pyLowerStr ((e.tag.property).getD "")) then
        match clean_price_text ((e.tag.content).getD "") with
        | some cp => some (cp, e)
        | none => none
      else none) with
  | some (cp, e) => (some cp, none, some e)
  | none =>
  match elems.findSome? (fun e =>
      match e.tag.itemprop with
      | some ip =>
        if listContains ip.data "price".data then
          match clean_price_text (tag_text_or_attr e) with
          | some cp => some (cp, e)
          | none => none
        else none
      | none => none) with
  | some (cp, e) => (some cp, none, some e)
  | none =>
    let cands := elems.filterMap (fun e =>
      if !(allowedPriceTags.contains e.tag.name) then none
      else
        let txt := tag_text_or_attr e
        if txt = "" then none
        else if !(txt.data.any isDigitC) then none
        else
          match clean_price_text txt with
          | none => none
          | some cp => some (e, txt, cp, score_price_candidate e txt))
    let sorted := sortCandsDesc cands
    match pickCand sorted with
    | some (cp, op, e) => (some cp, op, some e)
    | none =>
      let full := getTextSepN (docNode d)
      match searchCurrencyNum (pyLower full.data) with
      | some g =>
        match clean_price_text (String.mk g) with
        | some cp => (some cp, none, none)
        | none => priceFallbackB full.data
      | none => priceFallbackB full.data

/-! ## Heuristic name extraction (`find_best_name`, src/main.py lines 309-391) -/

def TITLE_CLASS_PAT : List String := ["title", "product", "name", "goods", "item"]

/-- `find_all(True, class_=re.compile(r"(title|product|name|goods|item)", re.I))`:
the regex is matched against each class of the multi-valued attribute. -/
def classMatchesTitlePat (t : TagInfo) : Bool :=
  t.classes.any (fun c => TITLE_CLASS_PAT.any (fun p => listContains (pyLower c.data) p.data))

/-- The up-to-four-ancestors walk of `find_nearby_name`. -/
def nearbyLoop : List (TagInfo × List Node) → Option String
  | [] => none
  | (_, ch) :: rest =>
    let elemsN := listElems [] ch
    match elemsN.findSome? (fun h =>
        if ["h1", "h2", "h3"].contains h.tag.name then
          let txt := eGetTextSep h
          if is_valid_name_candidate txt then some txt else none
        else none) with
    | some r => some r
    | none =>
      match elemsN.find? (fun x => classMatchesTitlePat x.tag) with
      | some x =>
        let txt := tag_text_or_attr x
        if is_valid_name_candidate txt then some txt else nearbyLoop rest
      | none => nearbyLoop rest

/-- `find_nearby_name` (src/main.py lines 374-391). -/
def find_nearby_name (e : EInfo) : Option String := nearbyLoop (e.ancestors.take 4)

/-- `sorted(candidates, key=len)[0]`: earliest string of minimal length. -/
def minLenFirst : List String → Option String
  | [] => none
  | s :: rest => some (rest.foldl (fun best x => if x.length < best.length then x else best) s)

/-- Generic split on one character (used for the `\n`-split of the line
fallback; splitting on single newlines is equivalent to `re.split(r"\n+", ...)`
once the pieces are stripped and the empty ones dropped). -/
def splitOnC (sep : Char) : List Char → List (List Char)
  | [] => [[]]
  | c :: rest =>
    if c = sep then [] :: splitOnC sep rest
    else
      match splitOnC sep rest with
      | h :: t => (c :: h) :: t
      | [] => [[c]]

/-- `find_best_name` (src/main.py lines 309-356). -/
def find_best_name (d : Doc) (price_tag : Option EInfo) : Option String :=
  let elems := docElems d
  let ogStep : Option String :=
    match elems.find? (fun e => e.tag.name = "meta" ∧ e.tag.property = some "og:title") with
    | some e =>
      match e.tag.content with
      | some ct =>
        if ct ≠ "" ∧ is_valid_name_candidate (pyStripStr ct) then some (pyStripStr ct) else none
      | none => none
    | none => none
  match ogStep with
  | some r => some r
  | none =>
  let twStep : Option String :=
    match elems.find? (fun e => e.tag.name = "meta" ∧ e.tag.nameAttr = some "twitter:title") with
    | some e =>
      match e.tag.content with
      | some ct =>
        if ct ≠ "" ∧ is_valid_name_candidate (pyStripStr ct) then some (pyStripStr ct) else none
      | none => none
    | none => none
  match twStep with
  | some r => some r
  | none =>
  let mtStep : Option String :=
    match elems.find? (fun e => e.tag.name = "meta" ∧ e.tag.nameAttr = some "title") with
    | some e =>
      match e.tag.content with
      | some ct =>
        if ct ≠ "" ∧ is_valid_name_candidate (pyStripStr ct) then some (pyStripStr ct) else none
      | none => none
    | none => none
  match mtStep with
  | some r => some r
  | none =>
  let titleStep : Option String :=
    match elems.find? (fun e => e.tag.name = "title") with
    | some e =>
      match tagString e with
      | some s =>
        if s ≠ "" then
          let t0 := pyStrip s.data
          let t := pyStrip (t0.takeWhile (fun c => c ≠ '|' && c ≠ '-' && c ≠ '—' && c ≠ ':'))
          if is_valid_name_candidate (String.mk t) then some (String.mk t) else none
        else none
      | none => none
    | none => none
  match titleStep with
  | some r => some r
  | none =>
  let ipStep : Option String :=
    elems.findSome? (fun e =>
      match e.tag.itemprop with
      | some ip =>
        if listContains ip.data "name".data then
          let txt := tag_text_or_attr e
          if txt ≠ "" ∧ is_valid_name_candidate txt then some txt else none
        else none
      | none => none)
  match ipStep with
  | some r => some r
  | none =>
  let hStep : Option String :=
    elems.findSome? (fun e =>
      if ["h1", "h2", "h3"].contains e.tag.name then
        let t := eGetTextSep e
        if t ≠ "" ∧ is_valid_name_candidate t then some t else none
      else none)
  match hStep with
  | some r => some r
  | none =>
  let clsCands := elems.filterMap (fun e =>
    if classMatchesTitlePat e.tag then
      let txt := tag_text_or_attr e
      if txt ≠ "" ∧ is_valid_name_candidate txt then some txt else none
    else none)
  match minLenFirst clsCands with
  | some r => some r
  | none =>
  let nearStep : Option String :=
    match price_tag with
    | some pt =>
      match find_nearby_name pt with
      | some nb => if nb ≠ "" ∧ is_valid_name_candidate nb then some nb else none
      | none => none
    | none => none
  match nearStep with
  | some r => some r
  | none =>
    let lines := ((splitOnC '\n' (getTextRawN (docNode d)).data).map pyStrip).filter
      (fun l => l ≠ [])
    lines.findSome? (fun l =>
      if 4 < l.length ∧ (splitWs l).length < 25 ∧ is_valid_name_candidate (String.mk l) then
        some (String.mk (pyStrip l))
      else none)

/-! ## Domain selector configuration, cache, fetch pipeline, orchestrator
(src/main.py lines 34-56, 393-398, 586-704, 719-909) -/

/-- A `DomainSelectorConfig`: ordered selector lists for name, price and
old price.  CSS selection itself is the external `soupsieve` engine, so a
selector is modelled by its denotation `Doc → Option EInfo`
(`soup.select_one`).  The `in_stock_text` phrase list of the configuration
is never read by src/main.py and is omitted. -/
structure DomainCfg where
  nameSels : List (Doc → Option EInfo) := []
  priceSels : List (Doc → Option EInfo) := []
  oldPriceSels : List (Doc → Option EInfo) := []

/-- The `extracted` dictionary moved between fetch and orchestrator. -/
structure Extracted where
  name : Option String := none
  price_text : Option String := none
  old_price_text : Option String := none

/-- One `LAST_GOOD_CACHE` entry (url-keyed dictionary value).  `oldPrice`,
`inStock` and `htmlC` are read back with `.get`, hence optional. -/
structure CacheEntry where
  ts : ℤ
  name : String
  currentPrice : String
  oldPrice : Option String := none
  inStock : Option Bool := none
  htmlC : Option (String × Doc) := none

abbrev Cache := List (String × CacheEntry)

def cacheLookup (cache : Cache) (url : String) : Option CacheEntry :=
  (cache.find? (fun e => e.1 = url)).map (·.2)

def cacheErase (url : String) (cache : Cache) : Cache :=
  cache.filter (fun e => e.1 ≠ url)

def cacheInsert (url : String) (e : CacheEntry) (cache : Cache) : Cache :=
  (url, e) :: cacheErase url cache

def LAST_GOOD_TTL : ℤ := 7 * 24 * 3600

/-- The guarded cache read used at every consultation site:
`lg = LAST_GOOD_CACHE.get(url)` followed by
`lg and (time.time() - lg["ts"] <= LAST_GOOD_TTL)`. -/
def lastGoodFresh (cache : Cache) (url : String) (now : ℤ) : Option CacheEntry :=
  match cacheLookup cache url with
  | some e => if now - e.ts ≤ LAST_GOOD_TTL then some e else none
  | none => none

/-- The ld+json loop of the quick requests path (src/main.py
lines 595-606): fill missing name/price from each item, stop when both
are present. -/
def ldQuick : List LdItem → Option String → Option String → Option String × Option String
  | [], n, p => (n, p)
  | it :: rest, n, p =>
    let n1 := if !optTruthy n then
        (match pyOrO it.nameLd it.headline with
         | some c => if c ≠ "" ∧ is_valid_name_candidate c then some c else n
         | none => n)
      else n
    let p1 := if !optTruthy p then
        (match price_from_ld it with
         | some pr => if pr ≠ "" then some pr else p
         | none => p)
      else p
    if optTruthy n1 ∧ optTruthy p1 then (n1, p1) else ldQuick rest n1 p1

/-- Domain price selectors on the static quick page (src/main.py
lines 610-620). -/
def domainQuickPrice (c : DomainCfg) (d : Doc) : Option String :=
  c.priceSels.findSome? (fun sel =>
    match sel d with
    | some tag =>
      let cp_text := if tag.tag.name = "meta" then pyStripStr ((tag.tag.content).getD "")
                     else eGetTextSep tag
      if cp_text ≠ "" ∧ text_has_digits_and_not_placeholder cp_text then some cp_text
      else none
    | none => none)

/-- Domain name selectors on the static quick page (src/main.py
lines 621-628). -/
def domainQuickName (c : DomainCfg) (d : Doc) : Option String :=
  c.nameSels.findSome? (fun sel =>
    match sel d with
    | some tag =>
      let txt := eGetTextSep tag
      if txt ≠ "" ∧ is_valid_name_candidate txt then some txt else none
    | none => none)

/-- The extraction run inline with the quick requests fetch (src/main.py
lines 594-640).  The fallback name step passes the price tag only when the
`find_best_price` block actually ran (`'ptag' in locals()`). -/
def quickExtract (cfg : Option DomainCfg) (d : Doc) : Extracted :=
  let (n1, p1) := ldQuick d.ld none none
  let p2 := match cfg with
    | some c =>
      if !optTruthy p1 then
        (match domainQuickPrice c d with
         | some t => some t
         | none => p1)
      else p1
    | none => p1
  let n2 := match cfg with
    | some c =>
      if !optTruthy n1 then
        (match domainQuickName c d with
         | some t => some t
         | none => n1)
      else n1
    | none => n1
  if !optTruthy p2 then
    let fbp := find_best_price d
    let p3 := if optTruthy fbp.1 then fbp.1 else p2
    let o3 := if optTruthy fbp.2.1 then fbp.2.1 else none
    let n3 := if !optTruthy n2 then
        (match find_best_name d fbp.2.2 with
         | some nm => if nm ≠ "" then some nm else n2
         | none => n2)
      else n2
    { name := n3, price_text := p3, old_price_text := o3 }
  else
    let n3 := if !optTruthy n2 then
        (match find_best_name d none with
         | some nm => if nm ≠ "" then some nm else n2
         | none => n2)
      else n2
    { name := n3, price_text := p2, old_price_text := none }

/-- The outcome of one external fetch action: `.error` models a raised
exception, `.ok` the returned page (raw string plus parsed view). -/
structure FetchCase where
  quick : Except Unit (String × Doc)
  pw : List (Except Unit (Extracted × String × Doc))
  fb : List (Except Unit (String × Doc))

/-- The Playwright attempt loop (src/main.py lines 659-688).  Returns the
updated registry, an early successful result if any, and whether an
exception was recorded into `last_exc`. -/
def pwLoop (url : String) (lg : Option CacheEntry) :
    List (Except Unit (Extracted × String × Doc)) → Registry →
    Registry × Option (String × Doc × Extracted) × Bool
  | [], reg => (reg, none, false)
  | att :: rest, reg =>
    match att with
    | .error _ =>
      let out := pwLoop url lg rest reg
      (out.1, out.2.1, true)
    | .ok (ext, html, d) =>
      if html ≠ "" ∧ 200 < html.length then
        if is_suspect_result reg url ext.name ext.price_text then
          let reg2 := record_suspicious_price (cleanO ext.price_text) url reg
          match lg with
          | some e =>
            let hd : String × Doc :=
              match e.htmlC with
              | some p => if p.1 ≠ "" then p else (html, d)
              | none => (html, d)
            (reg2, some (hd.1, hd.2,
              { name := some e.name, price_text := some e.currentPrice,
                old_price_text := e.oldPrice }), false)
          | none =>
            let out := pwLoop url lg rest reg2
            (out.1, out.2.1, true)
        else (reg, some (html, d, ext), false)
      else
        pwLoop url lg rest reg

/-- The final requests-fallback loop (src/main.py lines 691-700). -/
def fbLoop : List (Except Unit (String × Doc)) → Option (String × Doc) × Bool
  | [] => (none, false)
  | .error _ :: rest =>
    let out := fbLoop rest
    (out.1, true)
  | .ok (h, d) :: rest =>
    if h ≠ "" ∧ 200 < h.length then (some (h, d), false)
    else fbLoop rest

/-- `robust_fetch_html` (src/main.py lines 586-704), with the cache read
already resolved to `lg` and the external fetch outcomes given by `fc`.
`.error` is the final `raise last_exc`. -/
def robust_fetch_core (url : String) (cfg : Option DomainCfg) (fc : FetchCase)
    (lg : Option CacheEntry) (reg : Registry) :
    Except Unit (String × Doc × Extracted) × Registry :=
  let quickStep : Option (String × Doc × Extracted) × Registry :=
    match fc.quick with
    | .error _ => (none, reg)
    | .ok (html, d) =>
      if html ≠ "" ∧ 200 < html.length then
        let ext := quickExtract cfg d
        if optTruthy ext.price_text ∨ optTruthy ext.name then
          if !is_suspect_result reg url ext.name ext.price_text then (some (html, d, ext), reg)
          else (none, record_suspicious_price (cleanO ext.price_text) url reg)
        else (none, reg)
      else (none, reg)
  match quickStep with
  | (some r, reg1) => (.ok r, reg1)
  | (none, reg1) =>
    let pwOut := pwLoop url lg fc.pw reg1
    match pwOut.2.1 with
    | some r => (.ok r, pwOut.1)
    | none =>
      let fbOut := fbLoop fc.fb
      match fbOut.1 with
      | some hd => (.ok (hd.1, hd.2, {}), pwOut.1)
      | none =>
        if pwOut.2.2 ∨ fbOut.2 then (.error (), pwOut.1)
        else (.ok ("", ⟨[], []⟩, {}), pwOut.1)

/-! ## `parse_product` (src/main.py lines 719-909) -/

def unknownName : String := "Невідома назва"
def unknownPrice : String := "Невідома ціна"
def errName : String := "Помилка завантаження"
def errPrice : String := "Помилка"

structure ParseResponse where
  name : String
  currentPrice : String
  oldPrice : Option String := none
  inStock : Bool := true
deriving DecidableEq, Repr

def sentinelResponse : ParseResponse := ⟨unknownName, unknownPrice, none, false⟩

def errorResponse : ParseResponse := ⟨errName, errPrice, none, false⟩

/-- A cache-fallback response (src/main.py lines 879, 908):
`inStock=lg.get("inStock", True)`. -/
def cacheResponse (e : CacheEntry) : ParseResponse :=
  ⟨e.name, e.currentPrice, e.oldPrice, e.inStock.getD true⟩

/-- `float(cp) >= 20` for a normalizer output (`float` cannot fail there,
proved below; the impossible branch is `false`). -/
def valGE20 (cp : String) : Bool :=
  match parseFloat cp.data with
  | some v => decide (20 * (10 : ℤ) ^ v.exp ≤ v.mant)
  | none => false

/-- Careful adoption of the fetch-level extraction (src/main.py
lines 740-754): a price is accepted only with a currency marker or a
value of at least 20. -/
def adoptExtracted (ext : Extracted) : Option String × Option String × Option String :=
  let n := match ext.name with
    | some nm =>
      if nm ≠ "" then
        let cand := pyStripStr nm
        if is_valid_name_candidate cand then some cand else none
      else none
    | none => none
  let p := match ext.price_text with
    | some ptx =>
      if ptx ≠ "" then
        match clean_price_text ptx with
        | some cp =>
          if contains_currency ptx || valGE20 cp then some cp
          else none
        | none => none
      else none
    | none => none
  let o := match ext.old_price_text with
    | some otx =>
      if otx ≠ "" then
        match clean_price_text otx with
        | some op => some op
        | none => none
      else none
    | none => none
  (n, p, o)

/-- The orchestrator's own ld+json pass (src/main.py lines 762-779),
including the availability-driven `inStock` update (entered whenever
`not inStock`, i.e. whenever it is not yet `True`). -/
def ldFill : List LdItem → Option String → Option String → Option Bool →
    Option String × Option String × Option Bool
  | [], n, p, st => (n, p, st)
  | it :: rest, n, p, st =>
    let n1 := if !optTruthy n then
        (match pyOrO it.nameLd it.headline with
         | some c => if c ≠ "" ∧ is_valid_name_candidate c then some c else n
         | none => n)
      else n
    let p1 := if !optTruthy p then
        (match price_from_ld it with
         | some pr =>
           if pr ≠ "" then
             match clean_price_text pr with
             | some cp => some cp
             | none => p
           else p
         | none => p)
      else p
    let st1 := if st ≠ some true then
        (match it.offers with
         | some o =>
           (match o.availability with
            | some av =>
              if av ≠ "" then
                some (!(listContains (pyLower av.data) "outofstock".data ||
                        listContains (pyLower av.data) "notavailable".data))
              else st
            | none => st)
         | none => st)
      else st
    ldFill rest n1 p1 st1

/-- Domain price selectors in the orchestrator (src/main.py lines 783-795):
accept with a currency marker, value at least 20, or a price-keyword
class/id. -/
def domainPriceFill (c : DomainCfg) (d : Doc) : Option String :=
  c.priceSels.findSome? (fun sel =>
    match sel d with
    | some tag =>
      let cp := if tag.tag.name = "meta" then
                  clean_price_text (pyStripStr ((tag.tag.content).getD ""))
                else clean_price_text (eGetTextSep tag)
      match cp with
      | some cpv =>
        if contains_currency (tag_text_or_attr tag) ||
           valGE20 cpv ||
           (["price", "product-price", "грн", "uah"].any
             (fun p => listContains (pyLower (clsIdString tag.tag).data) p.data)) then
          some cpv
        else none
      | none => none
    | none => none)

/-- Domain name selectors in the orchestrator (src/main.py lines 796-803). -/
def domainNameFill (c : DomainCfg) (d : Doc) : Option String :=
  c.nameSels.findSome? (fun sel =>
    match sel d with
    | some tag =>
      let txt := eGetTextSep tag
      if txt ≠ "" ∧ is_valid_name_candidate txt then some txt else none
    | none => none)

/-- Domain old-price selectors in the orchestrator (src/main.py
lines 804-812). -/
def domainOldFill (c : DomainCfg) (d : Doc) : Option String :=
  c.oldPriceSels.findSome? (fun sel =>
    match sel d with
    | some tag =>
      match clean_price_text (eGetTextSep tag) with
      | some op => some op
      | none => none
    | none => none)

/-- The last-chance name candidates (src/main.py lines 829-837): CSS
attribute-substring selects on class/id, in selector order. -/
def extraNameCands (d : Doc) : List String :=
  let elems := docElems d
  let pick := fun (p : TagInfo → Bool) => elems.filterMap (fun e =>
    if p e.tag then
      let txt := tag_text_or_attr e
      if txt ≠ "" ∧ is_valid_name_candidate txt then some txt else none
    else none)
  pick (fun t => listContains (joinSepAux " " t.classes).data "title".data) ++
  pick (fun t => listContains (joinSepAux " " t.classes).data "product".data) ++
  pick (fun t => listContains ((t.idAttr).getD "").data "title".data) ++
  pick (fun t => listContains ((t.idAttr).getD "").data "product".data) ++
  pick (fun t => listContains (joinSepAux " " t.classes).data "name".data)

/-- The final raw-text price fallback (src/main.py lines 839-856): the
currency-anchored pattern first; only if it does not match at all, the
bare number pattern with the minimum-magnitude window check. -/
def rawTextPrice (d : Doc) : Option String :=
  let full := getTextSepN (docNode d)
  match searchCurrencyNum (pyLower full.data) with
  | some g =>
    (match clean_price_text (String.mk g) with
     | some cp => some cp
     | none => none)
  | none =>
    match searchNumC full.data with
    | some (g, s, e) =>
      match clean_price_text (String.mk g) with
      | some cp =>
        match parseFloat cp.data with
        | some num =>
          if num.mant < 20 * (10 : ℤ) ^ num.exp ∧
             !contains_currency (String.mk (surroundingSlice full.data s e)) then none
          else some cp
        | none => none
      | none => none
    | none => none

/-- The whole field-assembly cascade of the orchestrator (src/main.py
lines 740-856): adoption, ld+json, domain selectors, heuristics, raw-text
fallback.  Returns (name, currentPrice, oldPrice, inStock) before the
sentinel defaults. -/
def assemble (cfg : Option DomainCfg) (d : Doc) (ext : Extracted) :
    Option String × Option String × Option String × Option Bool :=
  let a := adoptExtracted ext
  let n0 := a.1
  let p0 := a.2.1
  let o0 := a.2.2
  let l := if !optTruthy n0 ∨ !optTruthy p0 then ldFill d.ld n0 p0 none else (n0, p0, none)
  let n1 := l.1
  let p1 := l.2.1
  let st1 := l.2.2
  let p2 := match cfg with
    | some c =>
      if !optTruthy p1 then
        (match domainPriceFill c d with
         | some x => some x
         | none => p1)
      else p1
    | none => p1
  let n2 := match cfg with
    | some c =>
      if !optTruthy n1 then
        (match domainNameFill c d with
         | some x => some x
         | none => n1)
      else n1
    | none => n1
  let o2 := match cfg with
    | some c =>
      if !optTruthy o0 then
        (match domainOldFill c d with
         | some x => some x
         | none => o0)
      else o0
    | none => o0
  let h := if !optTruthy p2 then
      let fbp := find_best_price d
      (if optTruthy fbp.1 then fbp.1 else p2,
       if optTruthy fbp.2.1 ∧ !optTruthy o2 then fbp.2.1 else o2,
       if optTruthy fbp.1 then fbp.2.2 else none)
    else (p2, o2, none)
  let p3 := h.1
  let o3 := h.2.1
  let ptag := h.2.2
  let n3 := if !optTruthy n2 then
      (match find_best_name d ptag with
       | some x => if x ≠ "" then some x else n2
       | none => n2)
    else n2
  let n4 := if !optTruthy n3 then
      (match minLenFirst (extraNameCands d) with
       | some x => some x
       | none => n3)
    else n3
  let p4 := if !optTruthy p3 then rawTextPrice d else p3
  (n4, p4, o3, st1)

/-- `inStock = bool(inStock if inStock is not None else (currentPrice and
currentPrice != "Невідома ціна"))` (src/main.py line 862). -/
def finalStock (st : Option Bool) (priceF : String) : Bool :=
  match st with
  | some b => b
  | none => if priceF = "" then false else decide (priceF ≠ unknownPrice)

/-- `if not html and not (name or currentPrice)` (src/main.py line 756). -/
def earlyError (html : String) (ext : Extracted) : Bool :=
  (html == "") && !optTruthy (adoptExtracted ext).1 && !optTruthy (adoptExtracted ext).2.1

/-- `name = name or "Невідома назва"` (src/main.py line 859). -/
def finalNameOf (cfg : Option DomainCfg) (d : Doc) (ext : Extracted) : String :=
  pyOr (assemble cfg d ext).1 unknownName

/-- `currentPrice = currentPrice or "Невідома ціна"` (src/main.py line 860). -/
def finalPriceOf (cfg : Option DomainCfg) (d : Doc) (ext : Extracted) : String :=
  pyOr (assemble cfg d ext).2.1 unknownPrice

/-- `oldPrice = oldPrice or None` (src/main.py line 861). -/
def finalOldOf (cfg : Option DomainCfg) (d : Doc) (ext : Extracted) : Option String :=
  match (assemble cfg d ext).2.2.1 with
  | some s => if s ≠ "" then some s else none
  | none => none

/-- The final trust verdict (src/main.py line 865): the sentinel values are
passed to `is_suspect_result` as missing. -/
def suspectFinal (reg : Registry) (url : String) (cfg : Option DomainCfg) (d : Doc)
    (ext : Extracted) : Bool :=
  is_suspect_result reg url
    (if finalNameOf cfg d ext = unknownName then none else some (finalNameOf cfg d ext))
    (if finalPriceOf cfg d ext = unknownPrice then none else some (finalPriceOf cfg d ext))

/-- The tail of the orchestrator on a successful fetch (src/main.py
lines 739-898): assembly, sentinel defaults, the final suspicion gate with
cache fallback, and the cache write.  Returns the response, the entry to
write for this URL (if any), and the updated registry. -/
def okBranch (url : String) (cfg : Option DomainCfg) (html : String) (d : Doc)
    (ext : Extracted) (lg : Option CacheEntry) (reg : Registry) (now : ℤ) :
    ParseResponse × Option CacheEntry × Registry :=
  if earlyError html ext then (errorResponse, none, reg)
  else
    let nameF := finalNameOf cfg d ext
    let priceF := finalPriceOf cfg d ext
    let oldF := finalOldOf cfg d ext
    let stF := finalStock (assemble cfg d ext).2.2.2 priceF
    let entry : CacheEntry :=
      { ts := now, name := nameF, currentPrice := priceF, oldPrice := oldF,
        inStock := some stF,
        htmlC := if html.length < 20000 then some (html, d) else none }
    if suspectFinal reg url cfg d ext then
      let reg2 := record_suspicious_price (clean_price_text priceF) url reg
      match lg with
      | some e => (cacheResponse e, none, reg2)
      | none =>
        if nameF = unknownName ∧ priceF = unknownPrice then (errorResponse, none, reg2)
        else (⟨nameF, priceF, oldF, stF⟩, some entry, reg2)
    else (⟨nameF, priceF, oldF, stF⟩, some entry, reg)

/-- `parse_product` (src/main.py lines 719-909).  `cfg` is the domain
selector configuration resolved for `url` (the `SITE_SELECTORS` substring
match); `fc` gives the outcomes of the external fetch actions; the big
`try/except` is the match on the fetch result, with the exception branch
falling back to the fresh cache entry, then the sentinel. -/
def parse_product (url : String) (cfg : Option DomainCfg) (fc : FetchCase)
    (cache : Cache) (reg : Registry) (now : ℤ) : ParseResponse × Cache × Registry :=
  let lg := lastGoodFresh cache url now
  match robust_fetch_core url cfg fc lg reg with
  | (.error _, reg1) =>
    ((match lg with
      | some e => cacheResponse e
      | none => sentinelResponse), cache, reg1)
  | (.ok (html, d, ext), reg1) =>
    let o := okBranch url cfg html d ext lg reg1 now
    (o.1, (match o.2.1 with
           | some e => cacheInsert url e cache
           | none => cache), o.2.2)


/-! ## Concrete fixtures used by the evaluation theorems -/

/-- Padding so the raw page string passes the `len(html) > 200` checks. -/
def padHtml (core : String) : String := core ++ String.mk (List.replicate 200 ' ')

/-- Scenario page whose only price-like text is "97 відгуків". -/
def doc97 : Doc :=
  ⟨[Node.elem { name := "html" } [Node.elem { name := "body" }
      [Node.elem { name := "div" } [Node.text "97 відгуків"]]]], []⟩

def html97 : String := padHtml "<html><body><div>97 відгуків</div></body></html>"

/-- Fetch outcome for the review-count page: the quick requests fetch
succeeds with that page. -/
def fc97 : FetchCase := ⟨.ok (html97, doc97), [], []⟩

/-- A page carrying a valid product-like heading but no digits at all. -/
def doc1 : Doc :=
  ⟨[Node.elem { name := "html" } [Node.elem { name := "body" }
      [Node.elem { name := "h1" } [Node.text "Гарний магазин"]]]], []⟩

def html1 : String := padHtml "<html><body><h1>Гарний магазин</h1></body></html>"

/-- Fetch outcome: quick requests raises, both Playwright attempts raise,
the requests fallback returns the digitless page. -/
def fc1 : FetchCase := ⟨.error (), [.error (), .error ()], [.ok (html1, doc1)]⟩

/-- A fetch where every external action raises. -/
def fcErr : FetchCase := ⟨.error (), [.error (), .error ()], [.error (), .error ()]⟩

/-- A 51-character decimal string (value 10^50). -/
def d51 : String := String.mk ('1' :: List.replicate 50 '0')

/-- A canonical positive decimal string: integer digits, optionally a dot
and fractional digits. -/
def decStr (ip fp : List Char) : List Char := ip ++ (if fp.isEmpty then [] else '.' :: fp)

/-- Following the specification wording for the Trust Evaluator claim: the
request bare domain is the lowercased netloc with the `"www."` prefix
removed (the source instead removes every occurrence of the substring). -/
def specBareDomain (url : String) : String :=
  let nl := pyLower (netlocOf url).data
  if "www.".data.isPrefixOf nl then String.mk (nl.drop 4) else String.mk nl

/-- A lone span candidate with a currency marker, for witnesses. -/
def einfoW : EInfo := ⟨{ name := "span" }, [Node.text "200 грн"], []⟩

def candW : EInfo × String × String × ℤ := (einfoW, "200 грн", "200", 210)

/-- A well-formed cache entry, for witnesses. -/
def entryW : CacheEntry :=
  { ts := 0, name := "Товар", currentPrice := "500", oldPrice := none,
    inStock := some true, htmlC := none }

def cacheW : Cache := [("u", entryW)]

/-- An extraction carrying only a valid name, for witnesses. -/
def extW : Extracted := { name := some "Valid Product Name" }

def emptyDoc : Doc := ⟨[], []⟩

/-! ## Lemmas: character classes and list utilities -/

theorem isDigitC_bounds {c : Char} (h : isDigitC c = true) : 48 ≤ c.toNat ∧ c.toNat ≤ 57 := by
  simpa [isDigitC, Bool.and_eq_true, decide_eq_true_eq] using h

theorem digit_ne_dot {c : Char} (h : isDigitC c = true) : c ≠ '.' := by
  obtain ⟨h1, h2⟩ := isDigitC_bounds h
  rintro rfl; revert h1 h2; decide

theorem digit_ne_comma {c : Char} (h : isDigitC c = true) : c ≠ ',' := by
  obtain ⟨h1, h2⟩ := isDigitC_bounds h
  rintro rfl; revert h1 h2; decide

theorem digit_ne_minus {c : Char} (h : isDigitC c = true) : c ≠ '-' := by
  obtain ⟨h1, h2⟩ := isDigitC_bounds h
  rintro rfl; revert h1 h2; decide

theorem digit_ne_plus {c : Char} (h : isDigitC c = true) : c ≠ '+' := by
  obtain ⟨h1, h2⟩ := isDigitC_bounds h
  rintro rfl; revert h1 h2; decide

theorem digit_ne_space {c : Char} (h : isDigitC c = true) : c ≠ ' ' := by
  obtain ⟨h1, h2⟩ := isDigitC_bounds h
  rintro rfl; revert h1 h2; decide

theorem digit_not_spaceChar {c : Char} (h : isDigitC c = true) : isSpaceChar c = false := by
  obtain ⟨h1, h2⟩ := isDigitC_bounds h
  unfold isSpaceChar
  simp only [Bool.or_eq_false_iff, Bool.and_eq_false_iff, decide_eq_false_iff_not]
  omega

theorem digit_toNat_ne_nbsp {c : Char} (h : isDigitC c = true) : ¬ c.toNat = 0xA0 := by
  obtain ⟨h1, h2⟩ := isDigitC_bounds h
  omega

theorem digit_numClass {c : Char} (h : isDigitC c = true) : numClass c = true := by
  simp [numClass, h]

theorem dot_not_spaceChar : isSpaceChar '.' = false := by decide

theorem takeWhile_all {p : Char → Bool} :
    ∀ {l : List Char}, (∀ c ∈ l, p c = true) → l.takeWhile p = l := by
  intro l
  induction l with
  | nil => intro _; rfl
  | cons c t ih =>
    intro h
    simp only [List.takeWhile_cons, h c (List.mem_cons_self c t)]
    exact congrArg (c :: ·) (ih (fun x hx => h x (List.mem_cons_of_mem c hx)))

theorem take_all_of_le {l : List Char} {n : ℕ} (h : l.length ≤ n) : l.take n = l :=
  List.take_of_length_le h

theorem dropWhile_all_false {p : Char → Bool} :
    ∀ {l : List Char}, (∀ c ∈ l, p c = false) → l.dropWhile p = l := by
  intro l
  induction l with
  | nil => intro _; rfl
  | cons c t _ =>
    intro h
    simp [List.dropWhile_cons, h c (List.mem_cons_self c t)]

theorem pyStrip_id {l : List Char} (h : ∀ c ∈ l, isSpaceChar c = false) : pyStrip l = l := by
  unfold pyStrip
  rw [dropWhile_all_false h, dropWhile_all_false (fun c hc => h c (List.mem_reverse.mp hc)),
    List.reverse_reverse]

theorem map_id_of {f : Char → Char} :
    ∀ {l : List Char}, (∀ c ∈ l, f c = c) → l.map f = l := by
  intro l
  induction l with
  | nil => intro _; rfl
  | cons c t ih =>
    intro h
    simp only [List.map_cons, h c (List.mem_cons_self c t)]
    exact congrArg (c :: ·) (ih (fun x hx => h x (List.mem_cons_of_mem c hx)))

theorem hasChar_false {ch : Char} :
    ∀ {l : List Char}, (∀ c ∈ l, c ≠ ch) → hasChar l ch = false := by
  intro l h
  unfold hasChar
  rw [List.any_eq_false]
  intro x hx
  simpa using h x hx

theorem filter_keep {p : Char → Bool} {l : List Char} (h : ∀ c ∈ l, p c = true) :
    l.filter p = l :=
  List.filter_eq_self.mpr h

/-! ## Lemmas: decimal digit strings -/

theorem natDigitsAux_eq_of_lt : ∀ (f g n : ℕ), n < f → n < g → natDigitsAux f n = natDigitsAux g n := by
  intro f
  induction f with
  | zero => intro g n h; omega
  | succ f ih =>
    intro g n hf hg
    cases g with
    | zero => omega
    | succ g =>
      by_cases h10 : n < 10
      · simp [natDigitsAux, h10]
      · have hd : n / 10 < n := Nat.div_lt_self (by omega) (by norm_num)
        simp only [natDigitsAux, if_neg h10]
        rw [ih g (n / 10) (by omega) (by omega)]

theorem natDigitsAux_fuel {f n : ℕ} (h : n < f) : natDigitsAux f n = natDigits n :=
  natDigitsAux_eq_of_lt f (n + 1) n h (Nat.lt_succ_self n)

theorem natDigits_lt {n : ℕ} (h : n < 10) : natDigits n = [Char.ofNat (48 + n)] := by
  simp [natDigits, natDigitsAux, h]

theorem natDigits_ge {n : ℕ} (h : 10 ≤ n) :
    natDigits n = natDigits (n / 10) ++ [Char.ofNat (48 + n % 10)] := by
  have hd : n / 10 < n := Nat.div_lt_self (by omega) (by norm_num)
  conv_lhs => rw [natDigits]
  simp only [natDigitsAux, if_neg (by omega : ¬ n < 10)]
  rw [natDigitsAux_eq_of_lt n (n / 10 + 1) (n / 10) hd (Nat.lt_succ_self _)]
  rfl

theorem char_digit_toNat {k : ℕ} (h : k ≤ 9) : (Char.ofNat (48 + k)).toNat = 48 + k := by
  interval_cases k <;> decide

theorem char_digit_isDigitC {k : ℕ} (h : k ≤ 9) : isDigitC (Char.ofNat (48 + k)) = true := by
  interval_cases k <;> decide

theorem digitVal_char {k : ℕ} (h : k ≤ 9) : digitVal (Char.ofNat (48 + k)) = k := by
  interval_cases k <;> decide

theorem natDigits_ne_nil (n : ℕ) : natDigits n ≠ [] := by
  by_cases h : n < 10
  · rw [natDigits_lt h]; simp
  · rw [natDigits_ge (by omega)]; simp

theorem natDigits_all_digit (n : ℕ) : ∀ c ∈ natDigits n, isDigitC c = true := by
  induction n using Nat.strong_induction_on with
  | _ n ih =>
    by_cases h : n < 10
    · rw [natDigits_lt h]
      intro c hc
      rw [List.mem_singleton] at hc
      subst hc
      exact char_digit_isDigitC (by omega)
    · rw [natDigits_ge (by omega)]
      intro c hc
      rcases List.mem_append.mp hc with h1 | h2
      · exact ih (n / 10) (Nat.div_lt_self (by omega) (by norm_num)) c h1
      · rw [List.mem_singleton] at h2
        subst h2
        exact char_digit_isDigitC (Nat.le_of_lt_succ (Nat.mod_lt n (by norm_num)))

theorem digitsVal_foldl (l : List Char) :
    ∀ a : ℕ, l.foldl (fun a c => a * 10 + digitVal c) a = a * 10 ^ l.length + digitsVal l := by
  induction l with
  | nil => intro a; simp [digitsVal]
  | cons c t ih =>
    intro a
    show t.foldl _ (a * 10 + digitVal c) = _
    rw [ih (a * 10 + digitVal c)]
    have : digitsVal (c :: t) = digitVal c * 10 ^ t.length + digitsVal t := by
      show t.foldl _ (0 * 10 + digitVal c) = _
      rw [ih (0 * 10 + digitVal c)]
      ring
    rw [this]
    simp [List.length_cons, pow_succ]
    ring

theorem digitsVal_append (a b : List Char) :
    digitsVal (a ++ b) = digitsVal a * 10 ^ b.length + digitsVal b := by
  unfold digitsVal
  rw [List.foldl_append]
  exact digitsVal_foldl b _

theorem digitsVal_natDigits (n : ℕ) : digitsVal (natDigits n) = n := by
  induction n using Nat.strong_induction_on with
  | _ n ih =>
    by_cases h : n < 10
    · rw [natDigits_lt h]
      show digitsVal [Char.ofNat (48 + n)] = n
      unfold digitsVal
      simp [digitVal_char (by omega : n ≤ 9)]
    · rw [natDigits_ge (by omega), digitsVal_append]
      have h1 : digitsVal (natDigits (n / 10)) = n / 10 :=
        ih (n / 10) (Nat.div_lt_self (by omega) (by norm_num))
      have h2 : digitsVal [Char.ofNat (48 + n % 10)] = n % 10 := by
        unfold digitsVal
        simp [digitVal_char (Nat.le_of_lt_succ (Nat.mod_lt n (by norm_num)))]
      rw [h1, h2]
      simp
      omega

theorem natDigits_length_le {n k : ℕ} (h : n < 10 ^ k) (hk : 1 ≤ k) :
    (natDigits n).length ≤ k := by
  induction n using Nat.strong_induction_on generalizing k with
  | _ n ih =>
    by_cases h10 : n < 10
    · rw [natDigits_lt h10]
      simpa using hk
    · have hk2 : 2 ≤ k := by
        by_contra hcon
        have : k = 1 := by omega
        subst this
        simp at h
        omega
      rw [natDigits_ge (by omega)]
      have hdiv : n / 10 < 10 ^ (k - 1) := by
        rw [Nat.div_lt_iff_lt_mul (by norm_num : 0 < 10)]
        calc n < 10 ^ k := h
        _ = 10 ^ (k - 1) * 10 := by
            rw [← pow_succ]
            congr 1
            omega
      have := ih (n / 10) (Nat.div_lt_self (by omega) (by norm_num)) hdiv (by omega)
      simp only [List.length_append, List.length_cons, List.length_nil]
      omega

theorem digitsVal_lt (l : List Char) (h : ∀ c ∈ l, isDigitC c = true) :
    digitsVal l < 10 ^ l.length := by
  induction l with
  | nil => simp [digitsVal]
  | cons c t ih =>
    have hc := isDigitC_bounds (h c (List.mem_cons_self c t))
    have hdc : digitVal c ≤ 9 := by unfold digitVal; omega
    have ht := ih (fun x hx => h x (List.mem_cons_of_mem c hx))
    have : digitsVal (c :: t) = digitVal c * 10 ^ t.length + digitsVal t := by
      have := digitsVal_append [c] t
      simpa [digitsVal, List.singleton_append] using this
    rw [this]
    simp only [List.length_cons, pow_succ]
    nlinarith

/-! ## Lemmas: `splitDot` and `parseFloat` -/

theorem splitDot_no_dot : ∀ {l : List Char}, (∀ c ∈ l, c ≠ '.') → splitDot l = [l] := by
  intro l
  induction l with
  | nil => intro _; rfl
  | cons c t ih =>
    intro h
    unfold splitDot
    rw [if_neg (h c (List.mem_cons_self c t))]
    rw [ih (fun x hx => h x (List.mem_cons_of_mem c hx))]

theorem splitDot_append_dot {a b : List Char} (h : ∀ c ∈ a, c ≠ '.') :
    splitDot (a ++ '.' :: b) = a :: splitDot b := by
  induction a with
  | nil =>
    simp only [List.nil_append]
    conv_lhs => rw [splitDot]
    rw [if_pos rfl]
  | cons c t ih =>
    have hc := h c (List.mem_cons_self c t)
    simp only [List.cons_append]
    conv_lhs => rw [splitDot]
    rw [if_neg hc, ih (fun x hx => h x (List.mem_cons_of_mem c hx))]

theorem parseFloat_digits {l : List Char} (hne : l ≠ []) (hd : ∀ c ∈ l, isDigitC c = true) :
    parseFloat l = some ⟨(digitsVal l : ℤ), 0⟩ := by
  obtain ⟨c, t, rfl⟩ := List.exists_cons_of_ne_nil hne
  have hc := hd c (List.mem_cons_self c t)
  unfold parseFloat
  simp only [if_neg (digit_ne_minus hc), if_neg (digit_ne_plus hc)]
  rw [splitDot_no_dot (fun x hx => digit_ne_dot (hd x hx))]
  simp [List.all_eq_true.mpr hd]

theorem parseFloat_decimal {a b : List Char} (ha : a ≠ [])
    (hda : ∀ c ∈ a, isDigitC c = true) (hdb : ∀ c ∈ b, isDigitC c = true) :
    parseFloat (a ++ '.' :: b) =
      some ⟨((digitsVal a : ℤ) * (10 : ℤ) ^ b.length + (digitsVal b : ℤ)), b.length⟩ := by
  obtain ⟨c, t, rfl⟩ := List.exists_cons_of_ne_nil ha
  have hc := hda c (List.mem_cons_self c t)
  unfold parseFloat
  simp only [List.cons_append]
  simp only [if_neg (digit_ne_minus hc), if_neg (digit_ne_plus hc)]
  rw [show (c :: (t ++ '.' :: b)) = (c :: t) ++ '.' :: b from rfl]
  rw [splitDot_append_dot (fun x hx => digit_ne_dot (hda x hx)),
    splitDot_no_dot (fun x hx => digit_ne_dot (hdb x hx))]
  simp [List.all_eq_true.mpr hda, List.all_eq_true.mpr hdb]

/-! ## Lemmas: the separator rules (claim C5 support) -/

theorem restStarts3Digits_digits {b : List Char} (h : ∀ c ∈ b, isDigitC c = true) :
    restStarts3Digits b = decide (b.length = 3) := by
  match b with
  | [] => rfl
  | [d1] => rfl
  | [d1, d2] => rfl
  | d1 :: d2 :: d3 :: rest =>
    have h1 := h d1 (by simp)
    have h2 := h d2 (by simp)
    have h3 := h d3 (by simp)
    cases rest with
    | nil => simp [restStarts3Digits, h1, h2, h3]
    | cons r rs =>
      have hr := h r (by simp)
      simp [restStarts3Digits, h1, h2, h3, hr]
      try omega

theorem sepThousandsTest_no_sep {sep : Char} :
    ∀ {l : List Char}, (∀ c ∈ l, c ≠ sep) → sepThousandsTest sep l = false := by
  intro l
  induction l with
  | nil => intro _; rfl
  | cons c t ih =>
    intro h
    conv_lhs => rw [sepThousandsTest]
    rw [ih (fun x hx => h x (List.mem_cons_of_mem c hx))]
    simp [h c (List.mem_cons_self c t)]

theorem sepThousandsTest_digits_append {sep : Char} {a b : List Char}
    (hs : ∀ c : Char, isDigitC c = true → c ≠ sep)
    (ha : ∀ c ∈ a, isDigitC c = true) (hb : ∀ c ∈ b, isDigitC c = true) :
    sepThousandsTest sep (a ++ sep :: b) = decide (b.length = 3) := by
  induction a with
  | nil =>
    simp only [List.nil_append]
    conv_lhs => rw [sepThousandsTest]
    rw [restStarts3Digits_digits hb, sepThousandsTest_no_sep (fun c hc => hs c (hb c hc))]
    simp
  | cons c t ih =>
    have hc := ha c (List.mem_cons_self c t)
    simp only [List.cons_append]
    conv_lhs => rw [sepThousandsTest]
    rw [ih (fun x hx => ha x (List.mem_cons_of_mem c hx))]
    simp [hs c hc]

/-! ## Lemmas: `cleanCore` on canonical decimal strings -/

theorem countDots_foldl (l : List Char) :
    ∀ a : ℕ, l.foldl (fun a c => if c = '.' then a + 1 else a) a = a + countDots l := by
  induction l with
  | nil => intro a; simp [countDots]
  | cons c t ih =>
    intro a
    have h1 : countDots (c :: t) = (if c = '.' then 0 + 1 else 0) + countDots t := by
      show t.foldl _ (if c = '.' then 0 + 1 else 0) = _
      rw [ih]
    show t.foldl _ (if c = '.' then a + 1 else a) = _
    rw [ih, h1]
    split_ifs <;> omega

theorem countDots_no_dot {l : List Char} (h : ∀ c ∈ l, c ≠ '.') : countDots l = 0 := by
  induction l with
  | nil => rfl
  | cons c t ih =>
    show t.foldl _ (if c = '.' then 0 + 1 else 0) = 0
    rw [countDots_foldl]
    rw [if_neg (h c (List.mem_cons_self c t))]
    simpa using ih (fun x hx => h x (List.mem_cons_of_mem c hx))

theorem countDots_decStr {ip fp : List Char}
    (hipd : ∀ c ∈ ip, isDigitC c = true) (hfpd : ∀ c ∈ fp, isDigitC c = true) :
    countDots (decStr ip fp) ≤ 1 := by
  unfold decStr countDots
  rw [List.foldl_append, countDots_foldl]
  rw [show ip.foldl (fun a c => if c = '.' then a + 1 else a) 0 = countDots ip from rfl]
  rw [countDots_no_dot (fun c hc => digit_ne_dot (hipd c hc))]
  by_cases hfe : fp.isEmpty
  · rw [if_pos hfe]; simp [countDots]
  · rw [if_neg hfe]
    show 0 + countDots ('.' :: fp) ≤ 1
    have : countDots ('.' :: fp) = 1 + countDots fp := by
      show fp.foldl _ (if '.' = '.' then 0 + 1 else 0) = _
      rw [countDots_foldl]
      simp
    rw [this, countDots_no_dot (fun c hc => digit_ne_dot (hfpd c hc))]

theorem findNumMatch_all {l : List Char} (hne : l ≠ []) (hhead : isDigitC l.headI = true)
    (hnum : ∀ c ∈ l, numClass c = true) (hlen : l.length ≤ 50) :
    findNumMatch l = some l := by
  obtain ⟨c, t, rfl⟩ := List.exists_cons_of_ne_nil hne
  have hc : isDigitC c = true := by simpa using hhead
  unfold findNumMatch
  simp only [digit_numClass hc, if_true]
  rw [takeWhile_all hnum, take_all_of_le hlen]

theorem decStr_mem {ip fp : List Char} (hipd : ∀ c ∈ ip, isDigitC c = true)
    (hfpd : ∀ c ∈ fp, isDigitC c = true) :
    ∀ c ∈ decStr ip fp, isDigitC c = true ∨ c = '.' := by
  intro c hc
  unfold decStr at hc
  rcases List.mem_append.mp hc with h1 | h2
  · exact Or.inl (hipd c h1)
  · by_cases hfe : fp.isEmpty
    · rw [if_pos hfe] at h2; simp at h2
    · rw [if_neg hfe] at h2
      rcases List.mem_cons.mp h2 with rfl | h3
      · exact Or.inr rfl
      · exact Or.inl (hfpd c h3)

theorem decStr_ne_nil {ip fp : List Char} (hipne : ip ≠ []) : decStr ip fp ≠ [] := by
  unfold decStr
  intro h
  exact hipne (List.append_eq_nil.mp h).1

theorem parseFloat_decStr {ip fp : List Char} (hipne : ip ≠ [])
    (hipd : ∀ c ∈ ip, isDigitC c = true) (hfpd : ∀ c ∈ fp, isDigitC c = true) :
    parseFloat (decStr ip fp) =
      some ⟨((digitsVal ip * 10 ^ fp.length + digitsVal fp : ℕ) : ℤ), fp.length⟩ := by
  by_cases hfe : fp.isEmpty
  · have : fp = [] := List.isEmpty_iff.mp hfe
    subst this
    unfold decStr
    simp only [List.isEmpty_nil, if_pos, List.append_nil]
    rw [parseFloat_digits hipne hipd]
    simp [digitsVal]
  · have hfne : fp ≠ [] := fun h => hfe (by simp [h])
    unfold decStr
    rw [if_neg (by simpa using hfe)]
    rw [parseFloat_decimal hipne hipd hfpd]
    congr 1
    push_cast
    ring_nf

theorem cleanCore_decStr {ip fp : List Char} (hipne : ip ≠ [])
    (hipd : ∀ c ∈ ip, isDigitC c = true) (hfpd : ∀ c ∈ fp, isDigitC c = true)
    (hfplen : fp.length ≤ 2) (hlen : (decStr ip fp).length ≤ 50) :
    cleanCore (decStr ip fp) =
      finishVal ⟨((digitsVal ip * 10 ^ fp.length + digitsVal fp : ℕ) : ℤ), fp.length⟩ := by
  have hmem := decStr_mem hipd hfpd
  have hnospace : ∀ c ∈ decStr ip fp, isSpaceChar c = false := fun c hc =>
    (hmem c hc).elim digit_not_spaceChar (fun h => h ▸ dot_not_spaceChar)
  have hnbsp : ∀ c ∈ decStr ip fp, nbspToSpace c = c := by
    intro c hc
    rcases hmem c hc with h | rfl
    · exact if_neg (digit_toNat_ne_nbsp h)
    · rfl
  have hnum : ∀ c ∈ decStr ip fp, numClass c = true := by
    intro c hc
    rcases hmem c hc with h | rfl
    · exact digit_numClass h
    · rfl
  have hnospc : ∀ c ∈ decStr ip fp, (decide (c ≠ ' ')) = true := by
    intro c hc
    rcases hmem c hc with h | rfl
    · simpa using digit_ne_space h
    · simp
  have hnocomma : ∀ c ∈ decStr ip fp, c ≠ ',' := by
    intro c hc
    rcases hmem c hc with h | rfl
    · exact digit_ne_comma h
    · simp
  have hhead : isDigitC ((decStr ip fp).headI) = true := by
    unfold decStr
    cases ip with
    | nil => exact absurd rfl hipne
    | cons x xs => simpa using hipd x (List.mem_cons_self x xs)
  unfold cleanCore
  rw [pyStrip_id hnospace, map_id_of hnbsp]
  rw [findNumMatch_all (decStr_ne_nil hipne) hhead hnum hlen]
  show cleanNum ((pyStrip (decStr ip fp)).filter fun c => c ≠ ' ') = _
  rw [pyStrip_id hnospace, filter_keep hnospc]
  unfold cleanNum
  have hnorm : normSeparators (decStr ip fp) = decStr ip fp := by
    unfold normSeparators
    rw [hasChar_false hnocomma]
    simp only [false_and, if_neg, Bool.false_eq_true, if_false]
    by_cases hfe : fp.isEmpty
    · have : fp = [] := List.isEmpty_iff.mp hfe
      subst this
      rw [hasChar_false (fun c hc => (hmem c hc).elim digit_ne_dot (fun h => absurd h (by
        unfold decStr at hc
        simp only [List.isEmpty_nil, if_pos, List.append_nil] at hc
        exact digit_ne_dot (hipd c hc))))]
      simp
    · have hfne : fp ≠ [] := fun h => hfe (by simp [h])
      have hdot : hasChar (decStr ip fp) '.' = true := by
        unfold hasChar decStr
        rw [List.any_eq_true]
        refine ⟨'.', ?_, by simp⟩
        rw [if_neg (by simpa using hfe)]
        exact List.mem_append.mpr (Or.inr (List.mem_cons_self _ _))
      rw [hdot]
      simp only [if_pos]
      have hsp : sepThousandsTest '.' (decStr ip fp) = false := by
        unfold decStr
        rw [if_neg (by simpa using hfe)]
        rw [sepThousandsTest_digits_append (fun c hc => digit_ne_dot hc) hipd hfpd]
        simp
        omega
      rw [hsp]
      simp
  rw [hnorm]
  have hkeep : ∀ c ∈ decStr ip fp, keepNumChar c = true := by
    intro c hc
    rcases hmem c hc with h | rfl
    · simp [keepNumChar, h]
    · rfl
  rw [filter_keep hkeep]
  rw [if_neg (decStr_ne_nil hipne)]
  rw [if_neg (by
    have := countDots_decStr hipd hfpd
    omega)]
  show (match parseFloat (decStr ip fp) with
        | none => none
        | some v => finishVal v) = _
  rw [parseFloat_decStr hipne hipd hfpd]

/-! ## Lemmas: `finishVal` on exact decimal values -/

theorem rheNat_exact {n d : ℕ} (hd : 0 < d) (hdvd : d ∣ n) : rheNat n d = n / d := by
  unfold rheNat
  rw [Nat.mod_eq_zero_of_dvd hdvd]
  simp [hd]

theorem finishVal_canonical {M k : ℕ} (hk : k ≤ 2) (hM : 0 < M) :
    ∃ fp2, finishVal ⟨(M : ℤ), k⟩ = some (decStr (natDigits (M / 10 ^ k)) fp2) ∧
      (∀ c ∈ fp2, isDigitC c = true) ∧ fp2.length ≤ k ∧
      0 < M / 10 ^ k + digitsVal fp2 ∧
      ((M / 10 ^ k) * 10 ^ fp2.length + digitsVal fp2) * 10 ^ k = M * 10 ^ fp2.length := by
  have hmz : ¬ ((M : ℤ) ≤ 0) := by exact_mod_cast Nat.not_le.mpr hM
  unfold finishVal
  rw [if_neg hmz]
  by_cases hint : M % 10 ^ k = 0
  · have hisInt : PyFloat.isInt ⟨(M : ℤ), k⟩ = true := by
      unfold PyFloat.isInt
      simp only [decide_eq_true_eq]
      exact_mod_cast hint
    rw [if_pos hisInt]
    have hdvd : 10 ^ k ∣ M := Nat.dvd_of_mod_eq_zero hint
    refine ⟨[], ?_, by simp, by simp, ?_, ?_⟩
    · simp [decStr]
    · have hle : 10 ^ k ≤ M := Nat.le_of_dvd hM hdvd
      have := Nat.div_pos hle (by positivity)
      simpa [digitsVal] using this
    · simp [digitsVal]
      exact Nat.div_mul_cancel hdvd
  · have hisInt : PyFloat.isInt ⟨(M : ℤ), k⟩ = false := by
      unfold PyFloat.isInt
      simp only [decide_eq_false_iff_not]
      exact_mod_cast hint
    rw [if_neg (by simp [hisInt])]
    unfold formatTwo
    simp only [Int.toNat_natCast]
    interval_cases k
    · exact absurd (Nat.mod_one M) hint
    · -- one fractional digit
      have hrh : rheNat (M * 100) (10 ^ 1) = M * 10 := by
        rw [rheNat_exact (by norm_num) ⟨M * 10, by ring⟩]
        omega
      rw [hrh]
      have hfr : M * 10 % 100 = M % 10 * 10 := by omega
      have hne : ¬ (M * 10 % 100 = 0) := by omega
      have hmod : M * 10 % 100 % 10 = 0 := by omega
      rw [if_neg hne, if_pos hmod]
      refine ⟨[Char.ofNat (48 + M * 10 % 100 / 10)], ?_, ?_, by simp, ?_, ?_⟩
      · have : M * 10 / 100 = M / 10 := by omega
        simp [decStr, this]
      · intro c hc
        rw [List.mem_singleton] at hc
        subst hc
        exact char_digit_isDigitC (by omega)
      · have h1 : digitsVal [Char.ofNat (48 + M * 10 % 100 / 10)] = M * 10 % 100 / 10 := by
          unfold digitsVal
          simp [digitVal_char (show M * 10 % 100 / 10 ≤ 9 by omega)]
        rw [h1]
        omega
      · have h1 : digitsVal [Char.ofNat (48 + M * 10 % 100 / 10)] = M * 10 % 100 / 10 := by
          unfold digitsVal
          simp [digitVal_char (show M * 10 % 100 / 10 ≤ 9 by omega)]
        rw [h1]
        simp only [List.length_singleton]
        omega
    · -- two fractional digits
      have hrh : rheNat (M * 100) (10 ^ 2) = M := by
        rw [rheNat_exact (by norm_num) ⟨M, by ring⟩]
        omega
      rw [hrh]
      have hne : ¬ (M % 100 = 0) := by omega
      rw [if_neg hne]
      by_cases h10 : M % 100 % 10 = 0
      · rw [if_pos h10]
        refine ⟨[Char.ofNat (48 + M % 100 / 10)], ?_, ?_, by simp, ?_, ?_⟩
        · simp [decStr]
        · intro c hc
          rw [List.mem_singleton] at hc
          subst hc
          exact char_digit_isDigitC (by omega)
        · have h1 : digitsVal [Char.ofNat (48 + M % 100 / 10)] = M % 100 / 10 := by
            unfold digitsVal
            simp [digitVal_char (show M % 100 / 10 ≤ 9 by omega)]
          rw [h1]
          omega
        · have h1 : digitsVal [Char.ofNat (48 + M % 100 / 10)] = M % 100 / 10 := by
            unfold digitsVal
            simp [digitVal_char (show M % 100 / 10 ≤ 9 by omega)]
          rw [h1]
          simp only [List.length_singleton]
          omega
      · rw [if_neg h10]
        refine ⟨[Char.ofNat (48 + M % 100 / 10), Char.ofNat (48 + M % 100 % 10)], ?_, ?_,
          by simp, ?_, ?_⟩
        · simp [decStr]
        · intro c hc
          rcases List.mem_cons.mp hc with rfl | hc2
          · exact char_digit_isDigitC (by omega)
          · rw [List.mem_singleton] at hc2
            subst hc2
            exact char_digit_isDigitC (by omega)
        · have h1 : digitsVal [Char.ofNat (48 + M % 100 / 10), Char.ofNat (48 + M % 100 % 10)]
              = M % 100 := by
            have := digitsVal_append [Char.ofNat (48 + M % 100 / 10)]
              [Char.ofNat (48 + M % 100 % 10)]
            simp only [List.singleton_append] at this
            rw [this]
            have ha : digitsVal [Char.ofNat (48 + M % 100 / 10)] = M % 100 / 10 := by
              unfold digitsVal
              simp [digitVal_char (show M % 100 / 10 ≤ 9 by omega)]
            have hb : digitsVal [Char.ofNat (48 + M % 100 % 10)] = M % 100 % 10 := by
              unfold digitsVal
              simp [digitVal_char (show M % 100 % 10 ≤ 9 by omega)]
            rw [ha, hb]
            simp
            omega
          rw [h1]
          omega
        · have h1 : digitsVal [Char.ofNat (48 + M % 100 / 10), Char.ofNat (48 + M % 100 % 10)]
              = M % 100 := by
            have := digitsVal_append [Char.ofNat (48 + M % 100 / 10)]
              [Char.ofNat (48 + M % 100 % 10)]
            simp only [List.singleton_append] at this
            rw [this]
            have ha : digitsVal [Char.ofNat (48 + M % 100 / 10)] = M % 100 / 10 := by
              unfold digitsVal
              simp [digitVal_char (show M % 100 / 10 ≤ 9 by omega)]
            have hb : digitsVal [Char.ofNat (48 + M % 100 % 10)] = M % 100 % 10 := by
              unfold digitsVal
              simp [digitVal_char (show M % 100 % 10 ≤ 9 by omega)]
            rw [ha, hb]
            simp
            omega
          rw [h1]
          rw [show ([Char.ofNat (48 + M % 100 / 10), Char.ofNat (48 + M % 100 % 10)] :
            List Char).length = 2 from rfl]
          omega

theorem decStr_length (a b : List Char) :
    (decStr a b).length = a.length + (if b.isEmpty then 0 else 1 + b.length) := by
  unfold decStr
  by_cases h : b.isEmpty
  · simp [h]
  · simp [h]
    omega

theorem clean_decStr_eq {ip fp : List Char} (hipne : ip ≠ [])
    (hipd : ∀ c ∈ ip, isDigitC c = true) (hfpd : ∀ c ∈ fp, isDigitC c = true)
    (hfplen : fp.length ≤ 2) (hlen : (decStr ip fp).length ≤ 50)
    (hpos : 0 < digitsVal ip + digitsVal fp) :
    ∃ fp2,
      clean_price_text (String.mk (decStr ip fp)) =
        some (String.mk (decStr
          (natDigits ((digitsVal ip * 10 ^ fp.length + digitsVal fp) / 10 ^ fp.length)) fp2)) ∧
      (∀ c ∈ fp2, isDigitC c = true) ∧ fp2.length ≤ fp.length ∧
      (natDigits ((digitsVal ip * 10 ^ fp.length + digitsVal fp) / 10 ^ fp.length)).length
        ≤ ip.length ∧
      0 < (digitsVal ip * 10 ^ fp.length + digitsVal fp) / 10 ^ fp.length + digitsVal fp2 ∧
      ((digitsVal ip * 10 ^ fp.length + digitsVal fp) / 10 ^ fp.length * 10 ^ fp2.length
          + digitsVal fp2) * 10 ^ fp.length
        = (digitsVal ip * 10 ^ fp.length + digitsVal fp) * 10 ^ fp2.length := by
  have hpow : 1 ≤ 10 ^ fp.length := Nat.one_le_pow _ _ (by norm_num)
  have hM : 0 < digitsVal ip * 10 ^ fp.length + digitsVal fp := by
    have h1 : digitsVal ip ≤ digitsVal ip * 10 ^ fp.length :=
      Nat.le_mul_of_pos_right _ (by omega)
    omega
  have hstr : ¬ String.mk (decStr ip fp) = "" :=
    fun h => (decStr_ne_nil hipne) (congrArg String.data h)
  unfold clean_price_text
  rw [if_neg hstr]
  rw [show (String.mk (decStr ip fp)).data = decStr ip fp from rfl]
  rw [cleanCore_decStr hipne hipd hfpd hfplen hlen]
  obtain ⟨fp2, heq, hd2, hl2, hp2, hv2⟩ := finishVal_canonical hfplen hM
  rw [heq]
  have hiplen : (natDigits ((digitsVal ip * 10 ^ fp.length + digitsVal fp)
      / 10 ^ fp.length)).length ≤ ip.length := by
    have hipl : 1 ≤ ip.length := by
      cases ip with
      | nil => exact absurd rfl hipne
      | cons x xs => simp
    have hdivlt : (digitsVal ip * 10 ^ fp.length + digitsVal fp) / 10 ^ fp.length
        < 10 ^ ip.length := by
      rw [Nat.div_lt_iff_lt_mul (by positivity)]
      have h1 := digitsVal_lt ip hipd
      have h2 := digitsVal_lt fp hfpd
      nlinarith
    exact natDigits_length_le hdivlt hipl
  exact ⟨fp2, rfl, hd2, hl2, hiplen, hp2, hv2⟩

/-- Round-trip core: normalizing a canonical decimal, then normalizing the
output, preserves the numeric value. -/
theorem clean_roundtrip {ip fp : List Char} (hipne : ip ≠ [])
    (hipd : ∀ c ∈ ip, isDigitC c = true) (hfpd : ∀ c ∈ fp, isDigitC c = true)
    (hfplen : fp.length ≤ 2) (hlen : (decStr ip fp).length ≤ 50)
    (hpos : 0 < digitsVal ip + digitsVal fp) :
    ∃ r r' v vd,
      clean_price_text (String.mk (decStr ip fp)) = some r ∧
      clean_price_text r = some r' ∧
      parseFloat r'.data = some v ∧
      parseFloat (decStr ip fp) = some vd ∧ pyfEqv v vd := by
  obtain ⟨fp2, heq, hd2, hl2fp, hiplen2, hpos2, hval2⟩ :=
    clean_decStr_eq hipne hipd hfpd hfplen hlen hpos
  have hQd := digitsVal_natDigits ((digitsVal ip * 10 ^ fp.length + digitsVal fp) / 10 ^ fp.length)
  have hipne2 := natDigits_ne_nil ((digitsVal ip * 10 ^ fp.length + digitsVal fp) / 10 ^ fp.length)
  have hipd2 := natDigits_all_digit ((digitsVal ip * 10 ^ fp.length + digitsVal fp) / 10 ^ fp.length)
  have hlen2 : (decStr (natDigits ((digitsVal ip * 10 ^ fp.length + digitsVal fp)
      / 10 ^ fp.length)) fp2).length ≤ 50 := by
    rw [decStr_length]
    rw [decStr_length] at hlen
    by_cases hfe2 : fp2.isEmpty
    · rw [if_pos hfe2]
      omega
    · rw [if_neg hfe2]
      have hf2ne : fp2 ≠ [] := fun h => hfe2 (by simp [h])
      have : 1 ≤ fp2.length := by
        cases fp2 with
        | nil => exact absurd rfl hf2ne
        | cons x xs => simp
      have hfne : ¬ fp.isEmpty := by
        intro hfe
        have hfp : fp = [] := List.isEmpty_iff.mp hfe
        subst hfp
        simp only [List.length_nil, Nat.le_zero] at hl2fp
        omega
      rw [if_neg hfne] at hlen
      omega
  have hpos2' : 0 < digitsVal (natDigits ((digitsVal ip * 10 ^ fp.length + digitsVal fp)
      / 10 ^ fp.length)) + digitsVal fp2 := by
    rw [hQd]
    exact hpos2
  obtain ⟨fp3, heq3, hd3, hl3fp, hiplen3, hpos3, hval3⟩ :=
    clean_decStr_eq hipne2 hipd2 hd2 (le_trans hl2fp hfplen) hlen2 hpos2'
  refine ⟨_, _,
    ⟨((digitsVal (natDigits ((digitsVal (natDigits ((digitsVal ip * 10 ^ fp.length
        + digitsVal fp) / 10 ^ fp.length)) * 10 ^ fp2.length + digitsVal fp2)
        / 10 ^ fp2.length)) * 10 ^ fp3.length + digitsVal fp3 : ℕ) : ℤ), fp3.length⟩,
    ⟨((digitsVal ip * 10 ^ fp.length + digitsVal fp : ℕ) : ℤ), fp.length⟩,
    heq, heq3, ?_, ?_, ?_⟩
  · exact parseFloat_decStr (natDigits_ne_nil _) (natDigits_all_digit _) hd3
  · exact parseFloat_decStr hipne hipd hfpd
  · -- numeric equality via the two value equations
    unfold pyfEqv
    simp only [digitsVal_natDigits] at hval3
    have hpow2 : 0 < 10 ^ fp2.length := by positivity
    have hcancel :
        (((digitsVal ip * 10 ^ fp.length + digitsVal fp) / 10 ^ fp.length * 10 ^ fp2.length
            + digitsVal fp2) / 10 ^ fp2.length * 10 ^ fp3.length + digitsVal fp3)
          * 10 ^ fp.length
          = (digitsVal ip * 10 ^ fp.length + digitsVal fp) * 10 ^ fp3.length := by
      apply Nat.eq_of_mul_eq_mul_right hpow2
      calc (((digitsVal ip * 10 ^ fp.length + digitsVal fp) / 10 ^ fp.length * 10 ^ fp2.length
              + digitsVal fp2) / 10 ^ fp2.length * 10 ^ fp3.length + digitsVal fp3)
            * 10 ^ fp.length * 10 ^ fp2.length
          = (((digitsVal ip * 10 ^ fp.length + digitsVal fp) / 10 ^ fp.length * 10 ^ fp2.length
              + digitsVal fp2) / 10 ^ fp2.length * 10 ^ fp3.length + digitsVal fp3)
            * 10 ^ fp2.length * 10 ^ fp.length := by ring
        _ = ((digitsVal ip * 10 ^ fp.length + digitsVal fp) / 10 ^ fp.length * 10 ^ fp2.length
              + digitsVal fp2) * 10 ^ fp3.length * 10 ^ fp.length := by rw [hval3]
        _ = ((digitsVal ip * 10 ^ fp.length + digitsVal fp) / 10 ^ fp.length * 10 ^ fp2.length
              + digitsVal fp2) * 10 ^ fp.length * 10 ^ fp3.length := by ring
        _ = (digitsVal ip * 10 ^ fp.length + digitsVal fp) * 10 ^ fp2.length
              * 10 ^ fp3.length := by rw [hval2]
        _ = (digitsVal ip * 10 ^ fp.length + digitsVal fp) * 10 ^ fp3.length
              * 10 ^ fp2.length := by ring
    simp only [digitsVal_natDigits]
    exact_mod_cast hcancel

/-! ## Lemmas: every normalizer output parses back as a number -/

theorem formatTwo_parses (v : PyFloat) :
    ∃ w, parseFloat (formatTwo v) = some w ∧ 0 ≤ w.mant ∧ formatTwo v ≠ [] := by
  unfold formatTwo
  by_cases h1 : rheNat (v.mant.toNat * 100) (10 ^ v.exp) % 100 = 0
  · rw [if_pos h1]
    refine ⟨_, parseFloat_digits (natDigits_ne_nil _) (natDigits_all_digit _), ?_,
      natDigits_ne_nil _⟩
    positivity
  · rw [if_neg h1]
    by_cases h2 : rheNat (v.mant.toNat * 100) (10 ^ v.exp) % 100 % 10 = 0
    · rw [if_pos h2]
      have hb : ∀ c ∈ [Char.ofNat (48 + rheNat (v.mant.toNat * 100) (10 ^ v.exp) % 100 / 10)],
          isDigitC c = true := by
        intro c hc
        rw [List.mem_singleton] at hc
        subst hc
        exact char_digit_isDigitC (by omega)
      refine ⟨_, parseFloat_decimal (natDigits_ne_nil _) (natDigits_all_digit _) hb, ?_, by simp⟩
      positivity
    · rw [if_neg h2]
      have hb : ∀ c ∈ [Char.ofNat (48 + rheNat (v.mant.toNat * 100) (10 ^ v.exp) % 100 / 10),
          Char.ofNat (48 + rheNat (v.mant.toNat * 100) (10 ^ v.exp) % 100 % 10)],
          isDigitC c = true := by
        intro c hc
        rcases List.mem_cons.mp hc with rfl | hc2
        · exact char_digit_isDigitC (by omega)
        · rw [List.mem_singleton] at hc2
          subst hc2
          exact char_digit_isDigitC (by omega)
      refine ⟨_, parseFloat_decimal (natDigits_ne_nil _) (natDigits_all_digit _) hb, ?_, by simp⟩
      positivity

theorem finishVal_some {v : PyFloat} {l : List Char} (h : finishVal v = some l) :
    ∃ w, parseFloat l = some w ∧ 0 ≤ w.mant ∧ l ≠ [] := by
  unfold finishVal at h
  by_cases h0 : v.mant ≤ 0
  · rw [if_pos h0] at h
    exact absurd h (by simp)
  · rw [if_neg h0] at h
    by_cases hI : v.isInt
    · rw [if_pos hI] at h
      obtain rfl : natDigits (v.mant.toNat / 10 ^ v.exp) = l := by
        injection h
      refine ⟨_, parseFloat_digits (natDigits_ne_nil _) (natDigits_all_digit _), ?_,
        natDigits_ne_nil _⟩
      positivity
    · rw [if_neg hI] at h
      obtain rfl : formatTwo v = l := by injection h
      exact formatTwo_parses v

theorem cleanNum_some {num1 l : List Char} (h : cleanNum num1 = some l) :
    ∃ v, finishVal v = some l := by
  simp only [cleanNum] at h
  split at h
  · exact absurd h (by simp)
  · split at h
    · exact absurd h (by simp)
    · exact ⟨_, h⟩

theorem cleanCore_some {l0 l : List Char} (h : cleanCore l0 = some l) :
    ∃ v, finishVal v = some l := by
  simp only [cleanCore] at h
  split at h
  · exact absurd h (by simp)
  · exact cleanNum_some h

theorem clean_parses {t r : String} (h : clean_price_text t = some r) :
    ∃ w, parseFloat r.data = some w ∧ 0 ≤ w.mant ∧ r ≠ "" := by
  unfold clean_price_text at h
  split at h
  · exact absurd h (by simp)
  · cases hc : cleanCore t.data with
    | none => rw [hc] at h; exact absurd h (by simp)
    | some l =>
      rw [hc] at h
      have hr : String.mk l = r := by
        simpa using h
      obtain ⟨v, hv⟩ := cleanCore_some hc
      obtain ⟨w, hw, hw0, hlne⟩ := finishVal_some hv
      subst hr
      exact ⟨w, hw, hw0, fun hre => hlne (congrArg String.data hre)⟩

theorem clean_input_ne_empty {t r : String} (h : clean_price_text t = some r) : t ≠ "" := by
  intro he
  subst he
  rw [show clean_price_text "" = none from rfl] at h
  exact absurd h (by simp)

/-! ## Lemmas: the suspicious-price registry (claim C9 support) -/

theorem regLookup_map_update {reg : Registry} {cp : String} {urls : List String} (u : String)
    (h : regLookup reg cp = some urls) :
    regLookup (reg.map (fun e => if e.1 = cp then (e.1, u :: e.2) else e)) cp
      = some (u :: urls) := by
  induction reg with
  | nil => simp [regLookup] at h
  | cons e rest ih =>
    by_cases he : e.1 = cp
    · unfold regLookup at h
      rw [List.find?_cons_of_pos _ (by simpa using he)] at h
      simp only [Option.map] at h
      injection h with h
      unfold regLookup
      simp only [List.map_cons, if_pos he]
      rw [List.find?_cons_of_pos _ (by simp [he])]
      simp [h]
    · unfold regLookup at h
      rw [List.find?_cons_of_neg _ (by simpa using he)] at h
      unfold regLookup
      simp only [List.map_cons, if_neg he]
      rw [List.find?_cons_of_neg _ (by simpa using he)]
      exact ih h

theorem record_lookup {cp : String} (hcp : cp ≠ "") (u : String) (reg : Registry) :
    ∃ L, regLookup (record_suspicious_price (some cp) u reg) cp = some L ∧ u ∈ L ∧
      ∀ x L0, regLookup reg cp = some L0 → x ∈ L0 → x ∈ L := by
  simp only [record_suspicious_price]
  rw [if_neg hcp]
  split
  · rename_i urls heq
    split
    · rename_i hmem
      refine ⟨urls, heq, List.mem_of_elem_eq_true hmem, ?_⟩
      intro x L0 h0 hx
      rw [heq] at h0
      injection h0 with h0
      exact h0 ▸ hx
    · rename_i hmem
      refine ⟨u :: urls, regLookup_map_update u heq, List.mem_cons_self u urls, ?_⟩
      intro x L0 h0 hx
      rw [heq] at h0
      injection h0 with h0
      exact List.mem_cons_of_mem u (h0 ▸ hx)
  · rename_i heq
    refine ⟨[u], ?_, List.mem_singleton_self u, ?_⟩
    · unfold regLookup
      rw [List.find?_cons_of_pos _ (by simp)]
      rfl
    · intro x L0 h0
      rw [heq] at h0
      exact absurd h0 (by simp)

theorem three_mem_le_length {l : List String} {a b c : String}
    (ha : a ∈ l) (hb : b ∈ l) (hc : c ∈ l)
    (hab : a ≠ b) (hac : a ≠ c) (hbc : b ≠ c) : 3 ≤ l.length := by
  have hsub : ({a, b, c} : Finset String) ⊆ l.toFinset := by
    intro x hx
    simp only [Finset.mem_insert, Finset.mem_singleton] at hx
    rcases hx with rfl | rfl | rfl <;> exact List.mem_toFinset.mpr (by assumption)
  have hcard : ({a, b, c} : Finset String).card = 3 := by
    rw [Finset.card_insert_of_not_mem (by simp [hab, hac]),
      Finset.card_insert_of_not_mem (by simp [hbc]), Finset.card_singleton]
  calc 3 = ({a, b, c} : Finset String).card := hcard.symm
    _ ≤ l.toFinset.card := Finset.card_le_card hsub
    _ ≤ l.length := l.toFinset_card_le

/-! ## Remaining shape lemma (claim C6 support) -/

theorem char_digit_ne_zero {k : ℕ} (hk : k ≤ 9) (h0 : k ≠ 0) : Char.ofNat (48 + k) ≠ '0' := by
  intro he
  have ht := char_digit_toNat hk
  rw [he] at ht
  have h48 : ('0' : Char).toNat = 48 := rfl
  omega

theorem hasChar_dot_natDigits (n : ℕ) : hasChar (natDigits n) '.' = false :=
  hasChar_false (fun c hc => digit_ne_dot (natDigits_all_digit n c hc))

theorem finishVal_format {v : PyFloat} {l : List Char} (h : finishVal v = some l) :
    hasChar l '.' = false ∨
    ∃ a b, l = a ++ '.' :: b ∧ 1 ≤ b.length ∧ b.length ≤ 2 ∧ b.getLast? ≠ some '0' := by
  unfold finishVal at h
  by_cases h0 : v.mant ≤ 0
  · rw [if_pos h0] at h
    exact absurd h (by simp)
  · rw [if_neg h0] at h
    by_cases hI : v.isInt
    · rw [if_pos hI] at h
      obtain rfl : natDigits (v.mant.toNat / 10 ^ v.exp) = l := by injection h
      exact Or.inl (hasChar_dot_natDigits _)
    · rw [if_neg hI] at h
      obtain rfl : formatTwo v = l := by injection h
      unfold formatTwo
      by_cases h1 : rheNat (v.mant.toNat * 100) (10 ^ v.exp) % 100 = 0
      · rw [if_pos h1]
        exact Or.inl (hasChar_dot_natDigits _)
      · rw [if_neg h1]
        by_cases h2 : rheNat (v.mant.toNat * 100) (10 ^ v.exp) % 100 % 10 = 0
        · rw [if_pos h2]
          refine Or.inr ⟨_, [Char.ofNat (48 + rheNat (v.mant.toNat * 100) (10 ^ v.exp)
            % 100 / 10)], rfl, by simp, by simp, ?_⟩
          have hne0 : rheNat (v.mant.toNat * 100) (10 ^ v.exp) % 100 / 10 ≠ 0 := by omega
          simpa using char_digit_ne_zero (by omega) hne0
        · rw [if_neg h2]
          refine Or.inr ⟨_, [Char.ofNat (48 + rheNat (v.mant.toNat * 100) (10 ^ v.exp)
            % 100 / 10), Char.ofNat (48 + rheNat (v.mant.toNat * 100) (10 ^ v.exp)
            % 100 % 10)], rfl, by simp, by simp, ?_⟩
          have hne0 : rheNat (v.mant.toNat * 100) (10 ^ v.exp) % 100 % 10 ≠ 0 := h2
          have hlast : ([Char.ofNat (48 + rheNat (v.mant.toNat * 100) (10 ^ v.exp) % 100 / 10),
              Char.ofNat (48 + rheNat (v.mant.toNat * 100) (10 ^ v.exp) % 100 % 10)] :
              List Char).getLast? = some (Char.ofNat (48 + rheNat (v.mant.toNat * 100)
              (10 ^ v.exp) % 100 % 10)) := rfl
          rw [hlast]
          simpa using char_digit_ne_zero (by omega) hne0

/-! ## Claim theorems -/

/-- C5: `clean_price_text` disambiguates separators by the stated rule.
The three reference inputs normalize to the same canonical value, and for a
lone separator surrounded by digits the thousands reading applies exactly
when three trailing digits follow it. -/
theorem c5_separator_rule :
    (clean_price_text "1,234.56" = some "1234.56" ∧
     clean_price_text "1.234,56" = some "1234.56" ∧
     clean_price_text "1 234,56" = some "1234.56") ∧
    (∀ a b : List Char, (∀ c ∈ a, isDigitC c = true) → (∀ c ∈ b, isDigitC c = true) →
      sepThousandsTest ',' (a ++ ',' :: b) = decide (b.length = 3) ∧
      sepThousandsTest '.' (a ++ '.' :: b) = decide (b.length = 3)) := by
  constructor
  · exact ⟨by decide, by decide, by decide⟩
  · intro a b ha hb
    exact ⟨sepThousandsTest_digits_append (fun c hc => digit_ne_comma hc) ha hb,
           sepThousandsTest_digits_append (fun c hc => digit_ne_dot hc) ha hb⟩

theorem c5_separator_rule_witness :
    sepThousandsTest ',' (['1', '2'] ++ ',' :: ['3', '4', '5'])
      = decide ((['3', '4', '5'] : List Char).length = 3) ∧
    sepThousandsTest '.' (['1', '2'] ++ '.' :: ['3', '4', '5'])
      = decide ((['3', '4', '5'] : List Char).length = 3) :=
  c5_separator_rule.2 ['1', '2'] ['3', '4', '5'] (by decide) (by decide)

/-- C6: the normalizer rejects empty and non-positive inputs, normalizes
"1 280,00 ₴" to "1280", and every admissible output either has no decimal
point or has one to two fractional digits with no trailing zero. -/
theorem c6_reject_and_format :
    (clean_price_text "" = none ∧ clean_price_text "0" = none ∧
     clean_price_text "-5" = none ∧ clean_price_text "1 280,00 ₴" = some "1280") ∧
    (∀ t r, clean_price_text t = some r →
      hasChar r.data '.' = false ∨
      ∃ a b, r.data = a ++ '.' :: b ∧ 1 ≤ b.length ∧ b.length ≤ 2 ∧
        b.getLast? ≠ some '0') := by
  constructor
  · exact ⟨by decide, by decide, by decide, by decide⟩
  · intro t r h
    unfold clean_price_text at h
    split at h
    · exact absurd h (by simp)
    · cases hc : cleanCore t.data with
      | none => rw [hc] at h; exact absurd h (by simp)
      | some l =>
        rw [hc] at h
        have hr : String.mk l = r := by simpa using h
        obtain ⟨v, hv⟩ := cleanCore_some hc
        subst hr
        exact finishVal_format hv

theorem c6_reject_and_format_witness :
    hasChar ("12.34" : String).data '.' = false ∨
    ∃ a b, ("12.34" : String).data = a ++ '.' :: b ∧ 1 ≤ b.length ∧ b.length ≤ 2 ∧
      b.getLast? ≠ some '0' :=
  c6_reject_and_format.2 "12.34" "12.34" (by decide)

/-! ## Lemmas: the binary64 rounding step -/

theorem canonDec_step (fuel N e : ℕ) :
    canonDec (fuel + 1) (N * 10) (e + 1) = canonDec fuel N e := by
  simp only [canonDec]
  rw [if_pos (Nat.mul_mod_left N 10)]
  rw [Nat.mul_div_cancel N (by norm_num : 0 < 10)]

theorem floatOfPos_mul10 (N e : ℕ) : floatOfPos (N * 10) (e + 1) = floatOfPos N e := by
  unfold floatOfPos
  rw [canonDec_step]

theorem pyRound_mul10 (M l : ℕ) :
    pyRound ⟨((M * 10 : ℕ) : ℤ), l + 1⟩ = pyRound ⟨((M : ℕ) : ℤ), l⟩ := by
  by_cases hM : M = 0
  · subst hM
    unfold pyRound
    rw [if_pos (show ((0 * 10 : ℕ) : ℤ) = 0 by norm_num),
        if_pos (show ((0 : ℕ) : ℤ) = 0 by norm_num)]
  · unfold pyRound
    have h1 : ¬ ((M * 10 : ℕ) : ℤ) = 0 := by
      simp [Nat.mul_eq_zero, hM]
    have h2 : ¬ ((M * 10 : ℕ) : ℤ) < 0 := by
      have := Int.natCast_nonneg (M * 10)
      omega
    have h3 : ¬ ((M : ℕ) : ℤ) = 0 := by simpa using hM
    have h4 : ¬ ((M : ℕ) : ℤ) < 0 := by
      have := Int.natCast_nonneg M
      omega
    rw [if_neg h1, if_neg h2, if_neg h3, if_neg h4]
    have h5 : ((M * 10 : ℕ) : ℤ).toNat = M * 10 := Int.toNat_natCast _
    have h6 : ((M : ℕ) : ℤ).toNat = M := Int.toNat_natCast _
    rw [h5, h6]
    exact congrArg (dblToPyFloat 1) (floatOfPos_mul10 M l)

theorem pyRound_mul10pow (M l d : ℕ) :
    pyRound ⟨((M * 10 ^ d : ℕ) : ℤ), l + d⟩ = pyRound ⟨((M : ℕ) : ℤ), l⟩ := by
  induction d with
  | zero => simp
  | succ d2 ih =>
    have h1 : M * 10 ^ (d2 + 1) = M * 10 ^ d2 * 10 := by ring
    have h2 : l + (d2 + 1) = (l + d2) + 1 := by omega
    rw [h1, h2, pyRound_mul10, ih]

theorem pyfEqv_trans {a b c : PyFloat} (h1 : pyfEqv a b) (h2 : pyfEqv b c) :
    pyfEqv a c := by
  unfold pyfEqv at h1 h2 ⊢
  have hp : (0 : ℤ) < 10 ^ b.exp := by positivity
  have h3 : a.mant * 10 ^ c.exp * 10 ^ b.exp = c.mant * 10 ^ a.exp * 10 ^ b.exp := by
    calc a.mant * 10 ^ c.exp * 10 ^ b.exp = a.mant * 10 ^ b.exp * 10 ^ c.exp := by ring
      _ = b.mant * 10 ^ a.exp * 10 ^ c.exp := by rw [h1]
      _ = b.mant * 10 ^ c.exp * 10 ^ a.exp := by ring
      _ = c.mant * 10 ^ b.exp * 10 ^ a.exp := by rw [h2]
      _ = c.mant * 10 ^ a.exp * 10 ^ b.exp := by ring
  exact mul_right_cancel₀ (ne_of_gt hp) h3

theorem rheNat_cancel {a b c : ℕ} (hc : 0 < c) : rheNat (a * c) (b * c) = rheNat a b := by
  unfold rheNat
  rw [Nat.mul_div_mul_right _ _ hc, Nat.mul_mod_mul_right]
  have e1 : a % b * c * 2 < b * c ↔ a % b * 2 < b := by
    constructor
    · intro h; nlinarith
    · intro h; nlinarith
  have e2 : a % b * c * 2 > b * c ↔ a % b * 2 > b := by
    constructor
    · intro h; nlinarith
    · intro h; nlinarith
  simp only [e1, e2]

theorem nat_div_cross {A B p q : ℕ} (hp : 0 < p) (hq : 0 < q) (h : A * q = B * p) :
    A / p = B / q := by
  have h1 : A / p = A * q / (p * q) := (Nat.mul_div_mul_right _ _ hq).symm
  have h2 : B / q = B * p / (q * p) := (Nat.mul_div_mul_right _ _ hp).symm
  rw [h1, h2, h, Nat.mul_comm p q]

theorem nat_dvd_cross {A B p q : ℕ} (hp : 0 < p) (h : A * q = B * p)
    (hd : p ∣ A) : q ∣ B := by
  obtain ⟨c, hc⟩ := hd
  have h2 : B * p = c * q * p := by
    rw [← h, hc]
    ring
  have hB2 : B = c * q := Nat.eq_of_mul_eq_mul_right hp h2
  exact ⟨c, by rw [hB2, Nat.mul_comm]⟩

theorem finishVal_congr {a b : PyFloat} (h : pyfEqv a b) : finishVal a = finishVal b := by
  unfold pyfEqv at h
  have hpa : (0 : ℤ) < 10 ^ a.exp := by positivity
  have hpb : (0 : ℤ) < 10 ^ b.exp := by positivity
  by_cases hle : a.mant ≤ 0
  · have hble : b.mant ≤ 0 := by nlinarith
    unfold finishVal
    rw [if_pos hle, if_pos hble]
  · push_neg at hle
    have hbgt : 0 < b.mant := by nlinarith
    obtain ⟨A, hA⟩ : ∃ A : ℕ, a.mant = (A : ℤ) :=
      ⟨a.mant.toNat, (Int.toNat_of_nonneg hle.le).symm⟩
    obtain ⟨B, hB⟩ : ∃ B : ℕ, b.mant = (B : ℤ) :=
      ⟨b.mant.toNat, (Int.toNat_of_nonneg hbgt.le).symm⟩
    have hx : A * 10 ^ b.exp = B * 10 ^ a.exp := by
      have h5 := h
      rw [hA, hB] at h5
      exact_mod_cast h5
    have hpa2 : 0 < (10 : ℕ) ^ a.exp := by positivity
    have hpb2 : 0 < (10 : ℕ) ^ b.exp := by positivity
    have hisInt : PyFloat.isInt a = PyFloat.isInt b := by
      unfold PyFloat.isInt
      apply decide_eq_decide.mpr
      rw [show (a.mant % 10 ^ a.exp = 0) ↔ ((10 : ℤ) ^ a.exp ∣ a.mant) from
            ⟨Int.dvd_of_emod_eq_zero, Int.emod_eq_zero_of_dvd⟩,
          show (b.mant % 10 ^ b.exp = 0) ↔ ((10 : ℤ) ^ b.exp ∣ b.mant) from
            ⟨Int.dvd_of_emod_eq_zero, Int.emod_eq_zero_of_dvd⟩]
      rw [hA, hB]
      constructor
      · intro hd
        have hdn : (10 : ℕ) ^ a.exp ∣ A := by exact_mod_cast hd
        have hq : (10 : ℕ) ^ b.exp ∣ B := nat_dvd_cross hpa2 hx hdn
        exact_mod_cast hq
      · intro hd
        have hdn : (10 : ℕ) ^ b.exp ∣ B := by exact_mod_cast hd
        have hq : (10 : ℕ) ^ a.exp ∣ A := nat_dvd_cross hpb2 hx.symm hdn
        exact_mod_cast hq
    have hn : rheNat (a.mant.toNat * 100) (10 ^ a.exp)
        = rheNat (b.mant.toNat * 100) (10 ^ b.exp) := by
      rw [hA, hB, Int.toNat_natCast, Int.toNat_natCast]
      calc rheNat (A * 100) (10 ^ a.exp)
          = rheNat (A * 100 * 10 ^ b.exp) (10 ^ a.exp * 10 ^ b.exp) :=
            (rheNat_cancel hpb2).symm
        _ = rheNat (B * 100 * 10 ^ a.exp) (10 ^ b.exp * 10 ^ a.exp) := by
            have hnum : A * 100 * 10 ^ b.exp = B * 100 * 10 ^ a.exp := by
              calc A * 100 * 10 ^ b.exp = A * 10 ^ b.exp * 100 := by ring
                _ = B * 10 ^ a.exp * 100 := by rw [hx]
                _ = B * 100 * 10 ^ a.exp := by ring
            rw [hnum, Nat.mul_comm (10 ^ a.exp) (10 ^ b.exp)]
        _ = rheNat (B * 100) (10 ^ b.exp) := rheNat_cancel hpa2
    have hfmt : formatTwo a = formatTwo b := by
      unfold formatTwo
      rw [hn]
    have hdiv : a.mant.toNat / 10 ^ a.exp = b.mant.toNat / 10 ^ b.exp := by
      rw [hA, hB, Int.toNat_natCast, Int.toNat_natCast]
      exact nat_div_cross hpa2 hpb2 hx
    unfold finishVal
    rw [if_neg (show ¬ a.mant ≤ 0 by omega), if_neg (show ¬ b.mant ≤ 0 by omega),
      hisInt, hdiv, hfmt]

theorem cleanCoreFl_decStr {ip fp : List Char} (hipne : ip ≠ [])
    (hipd : ∀ c ∈ ip, isDigitC c = true) (hfpd : ∀ c ∈ fp, isDigitC c = true)
    (hfplen : fp.length ≤ 2) (hlen : (decStr ip fp).length ≤ 50) :
    cleanCoreFl (decStr ip fp) =
      finishVal (pyRound ⟨((digitsVal ip * 10 ^ fp.length + digitsVal fp : ℕ) : ℤ), fp.length⟩) := by
  have hmem := decStr_mem hipd hfpd
  have hnospace : ∀ c ∈ decStr ip fp, isSpaceChar c = false := fun c hc =>
    (hmem c hc).elim digit_not_spaceChar (fun h => h ▸ dot_not_spaceChar)
  have hnbsp : ∀ c ∈ decStr ip fp, nbspToSpace c = c := by
    intro c hc
    rcases hmem c hc with h | rfl
    · exact if_neg (digit_toNat_ne_nbsp h)
    · rfl
  have hnum : ∀ c ∈ decStr ip fp, numClass c = true := by
    intro c hc
    rcases hmem c hc with h | rfl
    · exact digit_numClass h
    · rfl
  have hnospc : ∀ c ∈ decStr ip fp, (decide (c ≠ ' ')) = true := by
    intro c hc
    rcases hmem c hc with h | rfl
    · simpa using digit_ne_space h
    · simp
  have hnocomma : ∀ c ∈ decStr ip fp, c ≠ ',' := by
    intro c hc
    rcases hmem c hc with h | rfl
    · exact digit_ne_comma h
    · simp
  have hhead : isDigitC ((decStr ip fp).headI) = true := by
    unfold decStr
    cases ip with
    | nil => exact absurd rfl hipne
    | cons x xs => simpa using hipd x (List.mem_cons_self x xs)
  unfold cleanCoreFl
  rw [pyStrip_id hnospace, map_id_of hnbsp]
  rw [findNumMatch_all (decStr_ne_nil hipne) hhead hnum hlen]
  show cleanNumFl ((pyStrip (decStr ip fp)).filter fun c => c ≠ ' ') = _
  rw [pyStrip_id hnospace, filter_keep hnospc]
  unfold cleanNumFl
  have hnorm : normSeparators (decStr ip fp) = decStr ip fp := by
    unfold normSeparators
    rw [hasChar_false hnocomma]
    simp only [false_and, if_neg, Bool.false_eq_true, if_false]
    by_cases hfe : fp.isEmpty
    · have : fp = [] := List.isEmpty_iff.mp hfe
      subst this
      rw [hasChar_false (fun c hc => (hmem c hc).elim digit_ne_dot (fun h => absurd h (by
        unfold decStr at hc
        simp only [List.isEmpty_nil, if_pos, List.append_nil] at hc
        exact digit_ne_dot (hipd c hc))))]
      simp
    · have hfne : fp ≠ [] := fun h => hfe (by simp [h])
      have hdot : hasChar (decStr ip fp) '.' = true := by
        unfold hasChar decStr
        rw [List.any_eq_true]
        refine ⟨'.', ?_, by simp⟩
        rw [if_neg (by simpa using hfe)]
        exact List.mem_append.mpr (Or.inr (List.mem_cons_self _ _))
      rw [hdot]
      simp only [if_pos]
      have hsp : sepThousandsTest '.' (decStr ip fp) = false := by
        unfold decStr
        rw [if_neg (by simpa using hfe)]
        rw [sepThousandsTest_digits_append (fun c hc => digit_ne_dot hc) hipd hfpd]
        simp
        omega
      rw [hsp]
      simp
  rw [hnorm]
  have hkeep : ∀ c ∈ decStr ip fp, keepNumChar c = true := by
    intro c hc
    rcases hmem c hc with h | rfl
    · simp [keepNumChar, h]
    · rfl
  rw [filter_keep hkeep]
  rw [if_neg (decStr_ne_nil hipne)]
  rw [if_neg (by
    have := countDots_decStr hipd hfpd
    omega)]
  show (match parseFloat (decStr ip fp) with
        | none => none
        | some v => finishVal (pyRound v)) = _
  rw [parseFloat_decStr hipne hipd hfpd]

/-- Under an exactly-representable parsed value, the binary64 pipeline
agrees with the exact pipeline on canonical decimal inputs. -/
theorem clean_fl_eq_clean {ip fp : List Char} (hipne : ip ≠ [])
    (hipd : ∀ c ∈ ip, isDigitC c = true) (hfpd : ∀ c ∈ fp, isDigitC c = true)
    (hfplen : fp.length ≤ 2) (hlen : (decStr ip fp).length ≤ 50)
    (hrep : pyfEqv
      (pyRound ⟨((digitsVal ip * 10 ^ fp.length + digitsVal fp : ℕ) : ℤ), fp.length⟩)
      ⟨((digitsVal ip * 10 ^ fp.length + digitsVal fp : ℕ) : ℤ), fp.length⟩) :
    clean_price_text_fl (String.mk (decStr ip fp))
      = clean_price_text (String.mk (decStr ip fp)) := by
  have hstr : ¬ String.mk (decStr ip fp) = "" :=
    fun h => (decStr_ne_nil hipne) (congrArg String.data h)
  unfold clean_price_text_fl clean_price_text
  rw [if_neg hstr, if_neg hstr]
  rw [show (String.mk (decStr ip fp)).data = decStr ip fp from rfl]
  rw [cleanCoreFl_decStr hipne hipd hfpd hfplen hlen,
      cleanCore_decStr hipne hipd hfpd hfplen hlen]
  rw [finishVal_congr hrep]

/-- C7 (amended): round trip through the binary64 pipeline.  For every
positive decimal string of at most two fractional digits and at most 50
characters whose value is exactly representable as an IEEE-754 double
(the rounding of `float()` returns the value unchanged), normalizing it
and then normalizing the produced output yields a value numerically
equal to the original.  The representability hypothesis is forced:
`float()` rounds to 53 significant bits, so the unrestricted claim
already fails at 16-digit integers (see the counterexample), and the
50-character regex cap truncates longer inputs. -/
theorem c7_double_roundtrip (ip fp : List Char) (hipne : ip ≠ [])
    (hipd : ∀ c ∈ ip, isDigitC c = true) (hfpd : ∀ c ∈ fp, isDigitC c = true)
    (hfplen : fp.length ≤ 2) (hlen : (decStr ip fp).length ≤ 50)
    (hpos : 0 < digitsVal ip + digitsVal fp)
    (hrep : pyfEqv
      (pyRound ⟨((digitsVal ip * 10 ^ fp.length + digitsVal fp : ℕ) : ℤ), fp.length⟩)
      ⟨((digitsVal ip * 10 ^ fp.length + digitsVal fp : ℕ) : ℤ), fp.length⟩) :
    ∃ r r' v vd,
      clean_price_text_fl (String.mk (decStr ip fp)) = some r ∧
      clean_price_text_fl r = some r' ∧
      parseFloat r'.data = some v ∧
      parseFloat (decStr ip fp) = some vd ∧ pyfEqv v vd := by
  obtain ⟨fp2, heq, hd2, hl2fp, hiplen2, hpos2, hval2⟩ :=
    clean_decStr_eq hipne hipd hfpd hfplen hlen hpos
  have h1 : clean_price_text_fl (String.mk (decStr ip fp))
      = some (String.mk (decStr (natDigits ((digitsVal ip * 10 ^ fp.length + digitsVal fp)
          / 10 ^ fp.length)) fp2)) := by
    rw [clean_fl_eq_clean hipne hipd hfpd hfplen hlen hrep]
    exact heq
  have hpow2 : (0 : ℕ) < 10 ^ fp2.length := by positivity
  have hdelta : digitsVal ip * 10 ^ fp.length + digitsVal fp
      = ((digitsVal ip * 10 ^ fp.length + digitsVal fp) / 10 ^ fp.length * 10 ^ fp2.length
          + digitsVal fp2) * 10 ^ (fp.length - fp2.length) := by
    apply Nat.eq_of_mul_eq_mul_right hpow2
    calc (digitsVal ip * 10 ^ fp.length + digitsVal fp) * 10 ^ fp2.length
        = ((digitsVal ip * 10 ^ fp.length + digitsVal fp) / 10 ^ fp.length * 10 ^ fp2.length
            + digitsVal fp2) * 10 ^ fp.length := hval2.symm
      _ = ((digitsVal ip * 10 ^ fp.length + digitsVal fp) / 10 ^ fp.length * 10 ^ fp2.length
            + digitsVal fp2) * (10 ^ (fp.length - fp2.length) * 10 ^ fp2.length) := by
          rw [← pow_add,
            show fp.length - fp2.length + fp2.length = fp.length from by omega]
      _ = ((digitsVal ip * 10 ^ fp.length + digitsVal fp) / 10 ^ fp.length * 10 ^ fp2.length
            + digitsVal fp2) * 10 ^ (fp.length - fp2.length) * 10 ^ fp2.length := by ring
  have hround := pyRound_mul10pow ((digitsVal ip * 10 ^ fp.length + digitsVal fp)
      / 10 ^ fp.length * 10 ^ fp2.length + digitsVal fp2) fp2.length
      (fp.length - fp2.length)
  have hcast : ((digitsVal ip * 10 ^ fp.length + digitsVal fp : ℕ) : ℤ)
      = ((((digitsVal ip * 10 ^ fp.length + digitsVal fp) / 10 ^ fp.length * 10 ^ fp2.length
          + digitsVal fp2) * 10 ^ (fp.length - fp2.length) : ℕ) : ℤ) := by
    exact_mod_cast hdelta
  have hM2 : pyRound ⟨((digitsVal ip * 10 ^ fp.length + digitsVal fp : ℕ) : ℤ), fp.length⟩
      = pyRound ⟨(((digitsVal ip * 10 ^ fp.length + digitsVal fp) / 10 ^ fp.length
          * 10 ^ fp2.length + digitsVal fp2 : ℕ) : ℤ), fp2.length⟩ := by
    rw [← hround]
    rw [show fp2.length + (fp.length - fp2.length) = fp.length from by omega]
    rw [← hcast]
  have hx12 : pyfEqv
      ⟨((digitsVal ip * 10 ^ fp.length + digitsVal fp : ℕ) : ℤ), fp.length⟩
      ⟨(((digitsVal ip * 10 ^ fp.length + digitsVal fp) / 10 ^ fp.length * 10 ^ fp2.length
          + digitsVal fp2 : ℕ) : ℤ), fp2.length⟩ := by
    unfold pyfEqv
    show ((digitsVal ip * 10 ^ fp.length + digitsVal fp : ℕ) : ℤ) * 10 ^ fp2.length
        = (((digitsVal ip * 10 ^ fp.length + digitsVal fp) / 10 ^ fp.length * 10 ^ fp2.length
            + digitsVal fp2 : ℕ) : ℤ) * 10 ^ fp.length
    exact_mod_cast hval2.symm
  have hrep2 : pyfEqv
      (pyRound ⟨(((digitsVal ip * 10 ^ fp.length + digitsVal fp) / 10 ^ fp.length
          * 10 ^ fp2.length + digitsVal fp2 : ℕ) : ℤ), fp2.length⟩)
      ⟨(((digitsVal ip * 10 ^ fp.length + digitsVal fp) / 10 ^ fp.length * 10 ^ fp2.length
          + digitsVal fp2 : ℕ) : ℤ), fp2.length⟩ := by
    rw [← hM2]
    exact pyfEqv_trans hrep hx12
  have hrep2A : pyfEqv
      (pyRound ⟨((digitsVal (natDigits ((digitsVal ip * 10 ^ fp.length + digitsVal fp)
          / 10 ^ fp.length)) * 10 ^ fp2.length + digitsVal fp2 : ℕ) : ℤ), fp2.length⟩)
      ⟨((digitsVal (natDigits ((digitsVal ip * 10 ^ fp.length + digitsVal fp)
          / 10 ^ fp.length)) * 10 ^ fp2.length + digitsVal fp2 : ℕ) : ℤ), fp2.length⟩ := by
    simp only [digitsVal_natDigits]
    exact hrep2
  have hQd := digitsVal_natDigits ((digitsVal ip * 10 ^ fp.length + digitsVal fp)
      / 10 ^ fp.length)
  have hipne2 := natDigits_ne_nil ((digitsVal ip * 10 ^ fp.length + digitsVal fp)
      / 10 ^ fp.length)
  have hipd2 := natDigits_all_digit ((digitsVal ip * 10 ^ fp.length + digitsVal fp)
      / 10 ^ fp.length)
  have hlen2 : (decStr (natDigits ((digitsVal ip * 10 ^ fp.length + digitsVal fp)
      / 10 ^ fp.length)) fp2).length ≤ 50 := by
    rw [decStr_length]
    rw [decStr_length] at hlen
    by_cases hfe2 : fp2.isEmpty
    · rw [if_pos hfe2]
      omega
    · rw [if_neg hfe2]
      have hf2ne : fp2 ≠ [] := fun h => hfe2 (by simp [h])
      have : 1 ≤ fp2.length := by
        cases fp2 with
        | nil => exact absurd rfl hf2ne
        | cons x xs => simp
      have hfne : ¬ fp.isEmpty := by
        intro hfe
        have hfp : fp = [] := List.isEmpty_iff.mp hfe
        subst hfp
        simp only [List.length_nil, Nat.le_zero] at hl2fp
        omega
      rw [if_neg hfne] at hlen
      omega
  have hpos2A : 0 < digitsVal (natDigits ((digitsVal ip * 10 ^ fp.length + digitsVal fp)
      / 10 ^ fp.length)) + digitsVal fp2 := by
    rw [hQd]
    exact hpos2
  obtain ⟨fp3, heq3, hd3, hl3fp, hiplen3, hpos3, hval3⟩ :=
    clean_decStr_eq hipne2 hipd2 hd2 (le_trans hl2fp hfplen) hlen2 hpos2A
  have h2 : clean_price_text_fl (String.mk (decStr (natDigits ((digitsVal ip
        * 10 ^ fp.length + digitsVal fp) / 10 ^ fp.length)) fp2))
      = some (String.mk (decStr (natDigits ((digitsVal (natDigits ((digitsVal ip
          * 10 ^ fp.length + digitsVal fp) / 10 ^ fp.length)) * 10 ^ fp2.length
          + digitsVal fp2) / 10 ^ fp2.length)) fp3)) := by
    rw [clean_fl_eq_clean hipne2 hipd2 hd2 (le_trans hl2fp hfplen) hlen2 hrep2A]
    exact heq3
  refine ⟨_, _,
    ⟨((digitsVal (natDigits ((digitsVal (natDigits ((digitsVal ip * 10 ^ fp.length
        + digitsVal fp) / 10 ^ fp.length)) * 10 ^ fp2.length + digitsVal fp2)
        / 10 ^ fp2.length)) * 10 ^ fp3.length + digitsVal fp3 : ℕ) : ℤ), fp3.length⟩,
    ⟨((digitsVal ip * 10 ^ fp.length + digitsVal fp : ℕ) : ℤ), fp.length⟩,
    h1, h2, ?_, ?_, ?_⟩
  · exact parseFloat_decStr (natDigits_ne_nil _) (natDigits_all_digit _) hd3
  · exact parseFloat_decStr hipne hipd hfpd
  · unfold pyfEqv
    simp only [digitsVal_natDigits] at hval3
    have hpow2A : 0 < 10 ^ fp2.length := by positivity
    have hcancel :
        (((digitsVal ip * 10 ^ fp.length + digitsVal fp) / 10 ^ fp.length * 10 ^ fp2.length
            + digitsVal fp2) / 10 ^ fp2.length * 10 ^ fp3.length + digitsVal fp3)
          * 10 ^ fp.length
          = (digitsVal ip * 10 ^ fp.length + digitsVal fp) * 10 ^ fp3.length := by
      apply Nat.eq_of_mul_eq_mul_right hpow2A
      calc (((digitsVal ip * 10 ^ fp.length + digitsVal fp) / 10 ^ fp.length * 10 ^ fp2.length
              + digitsVal fp2) / 10 ^ fp2.length * 10 ^ fp3.length + digitsVal fp3)
            * 10 ^ fp.length * 10 ^ fp2.length
          = (((digitsVal ip * 10 ^ fp.length + digitsVal fp) / 10 ^ fp.length * 10 ^ fp2.length
              + digitsVal fp2) / 10 ^ fp2.length * 10 ^ fp3.length + digitsVal fp3)
            * 10 ^ fp2.length * 10 ^ fp.length := by ring
        _ = ((digitsVal ip * 10 ^ fp.length + digitsVal fp) / 10 ^ fp.length * 10 ^ fp2.length
              + digitsVal fp2) * 10 ^ fp3.length * 10 ^ fp.length := by rw [hval3]
        _ = ((digitsVal ip * 10 ^ fp.length + digitsVal fp) / 10 ^ fp.length * 10 ^ fp2.length
              + digitsVal fp2) * 10 ^ fp.length * 10 ^ fp3.length := by ring
        _ = (digitsVal ip * 10 ^ fp.length + digitsVal fp) * 10 ^ fp2.length
              * 10 ^ fp3.length := by rw [hval2]
        _ = (digitsVal ip * 10 ^ fp.length + digitsVal fp) * 10 ^ fp3.length
              * 10 ^ fp2.length := by ring
    simp only [digitsVal_natDigits]
    exact_mod_cast hcancel

theorem c7_double_roundtrip_witness :
    ∃ r r' v vd,
      clean_price_text_fl (String.mk (decStr ['4', '2'] ['5'])) = some r ∧
      clean_price_text_fl r = some r' ∧
      parseFloat r'.data = some v ∧
      parseFloat (decStr ['4', '2'] ['5']) = some vd ∧ pyfEqv v vd :=
  c7_double_roundtrip ['4', '2'] ['5'] (by decide) (by decide) (by decide) (by decide)
    (by decide) (by decide) (by decide)

/-- C7 (counterexample): the unrestricted round trip is false of the
program.  `float()` rounds "9007199254740993" (16 characters, no
fractional part, value 2^53 + 1) to the even-significand double
9007199254740992, so the normalizer returns a numerically different
value; and the 51-character string 10^50 is first truncated to 10^49 by
the 50-character regex cap and then rounded to the nearest double, whose
exact integer digits the normalizer returns. -/
theorem c7_counterexample_double :
    clean_price_text_fl "9007199254740993" = some "9007199254740992" ∧
    parseFloat ("9007199254740993" : String).data = some ⟨9007199254740993, 0⟩ ∧
    parseFloat ("9007199254740992" : String).data = some ⟨9007199254740992, 0⟩ ∧
    ¬ pyfEqv (⟨9007199254740992, 0⟩ : PyFloat) ⟨9007199254740993, 0⟩ ∧
    clean_price_text_fl d51
      = some "9999999999999999464902769475481793196872414789632" :=
  ⟨by decide, by decide, by decide, by decide, by decide⟩

/-- C9: once a normalized price string is recorded against three distinct
URLs, `is_suspect_result` flags every further evaluation whose price text
normalizes to that string, for any URL and name. -/
theorem c9_global_threshold (reg0 : Registry) (u1 u2 u3 url4 : String)
    (nm : Option String) (pt cp : String)
    (h12 : u1 ≠ u2) (h13 : u1 ≠ u3) (h23 : u2 ≠ u3)
    (hcp : clean_price_text pt = some cp) :
    is_suspect_result
      (record_suspicious_price (some cp) u1
        (record_suspicious_price (some cp) u2
          (record_suspicious_price (some cp) u3 reg0)))
      url4 nm (some pt) = true := by
  obtain ⟨w, hw, _, hcpne⟩ := clean_parses hcp
  have hptne : pt ≠ "" := clean_input_ne_empty hcp
  obtain ⟨L3, hL3, hm3, _⟩ := record_lookup hcpne u3 reg0
  obtain ⟨L2, hL2, hm2, hk2⟩ := record_lookup hcpne u2 _
  obtain ⟨L1, hL1, hm1, hk1⟩ := record_lookup hcpne u1 _
  have hu3 : u3 ∈ L1 := hk1 u3 L2 hL2 (hk2 u3 L3 hL3 hm3)
  have hu2 : u2 ∈ L1 := hk1 u2 L2 hL2 hm2
  have hlen3 : 3 ≤ L1.length := three_mem_le_length hm1 hu2 hu3 h12 h13 h23
  have hmarked : price_marked_globally_suspicious
      (record_suspicious_price (some cp) u1
        (record_suspicious_price (some cp) u2
          (record_suspicious_price (some cp) u3 reg0))) cp = true := by
    unfold price_marked_globally_suspicious
    rw [hL1]
    simpa [SUSPICIOUS_THRESHOLD] using hlen3
  simp only [is_suspect_result]
  split
  · rfl
  · simp [hptne, hcp, hw, hmarked]

theorem c9_global_threshold_witness :
    is_suspect_result
      (record_suspicious_price (some "500") "a"
        (record_suspicious_price (some "500") "b"
          (record_suspicious_price (some "500") "c" [])))
      "https://d.example.com/x" none (some "500 грн") = true :=
  c9_global_threshold [] "a" "b" "c" "https://d.example.com/x" none "500 грн" "500"
    (by decide) (by decide) (by decide) (by decide)

/-! ## Orchestration helper lemmas -/

theorem pyOr_ne_empty {a : Option String} {d : String} (hd : d ≠ "") : pyOr a d ≠ "" := by
  cases a with
  | none => exact hd
  | some s =>
    by_cases hs : s = ""
    · simpa [pyOr, hs] using hd
    · simp [pyOr, hs]

theorem finalPriceOf_ne_empty (cfg : Option DomainCfg) (d : Doc) (ext : Extracted) :
    finalPriceOf cfg d ext ≠ "" := by
  unfold finalPriceOf
  exact pyOr_ne_empty (by decide)

theorem lastGoodFresh_stale {cache : Cache} {url : String} {now : ℤ} {e : CacheEntry}
    (hlook : cacheLookup cache url = some e) (hstale : LAST_GOOD_TTL < now - e.ts) :
    lastGoodFresh cache url now = none := by
  unfold lastGoodFresh
  rw [hlook]
  exact if_neg (by omega)

theorem cacheLookup_erase (url : String) (cache : Cache) :
    cacheLookup (cacheErase url cache) url = none := by
  unfold cacheLookup
  have h : (cacheErase url cache).find? (fun e => e.1 = url) = none := by
    rw [List.find?_eq_none]
    intro x hx
    have hm := (List.mem_filter.mp hx).2
    simp only [decide_eq_true_eq] at hm ⊢
    exact hm
  rw [h]
  rfl

/-- C8 (amended): `is_suspect_result` flags a non-empty name whenever the
lowercased stripped name contains the source's notion of the bare domain
(`netloc` lowercased with every occurrence of `"www."` deleted), or the
name is a single bare domain-like token.  The spec's prefix-only removal
diverges from the source on netlocs with an interior or repeated
`"www."`. -/
theorem c8_amended_domain_name (url nm : String) (pt : Option String) (reg : Registry)
    (hne : nm ≠ "")
    (hcond :
      (∃ d, domain_from_url url = some d ∧ d ≠ "" ∧
        listContains (pyLower (pyStrip nm.data)) d.data = true) ∨
      (is_domain_like (String.mk (pyLower (pyStrip nm.data))) = true ∧
       (splitWs (pyLower (pyStrip nm.data))).length = 1)) :
    is_suspect_result reg url (some nm) pt = true := by
  obtain ⟨D, hD⟩ : ∃ D, domain_from_url url = some D := ⟨_, rfl⟩
  simp only [is_suspect_result, hD]
  rw [if_pos hne]
  rcases hcond with ⟨d, hd, hdne, hdc⟩ | ⟨h1, h2⟩
  · rw [hD] at hd
    injection hd with hd
    subst hd
    simp [hdne, hdc]
  · simp [h1, h2]

theorem c8_amended_domain_name_witness :
    is_suspect_result [] "https://shop.example.com/a" (some "shop.example.com товар")
      (some "500 грн") = true :=
  c8_amended_domain_name "https://shop.example.com/a" "shop.example.com товар"
    (some "500 грн") [] (by decide)
    (Or.inl ⟨"shop.example.com", rfl, by decide, by decide⟩)

/-- C8 (counterexample): for the URL "https://wwww.com/x" the spec's bare
domain (prefix removal) is "wwww.com", and the name "Product from
wwww.com" contains it, yet `is_suspect_result` returns `false`: the source
deletes every "www." occurrence, producing "wcom", which the name does not
contain. -/
theorem c8_counterexample :
    specBareDomain "https://wwww.com/x" = "wwww.com" ∧
    ("Product from wwww.com" : String) ≠ "" ∧
    strContains (pyLowerStr (pyStripStr "Product from wwww.com"))
      (specBareDomain "https://wwww.com/x") = true ∧
    domain_from_url "https://wwww.com/x" = some "wcom" ∧
    is_suspect_result [] "https://wwww.com/x" (some "Product from wwww.com")
      (some "100 грн") = false :=
  ⟨by decide, by decide, by decide, by decide, by decide⟩

/-- C2 (amended): on the review-count page the pipeline returns "97" as
`currentPrice` (the claimed sentinel outcome is refuted by
`c2_counterexample`): the admissibility rule only rejects candidates whose
value is below 20 without a currency marker or price class, and 97 passes
it.  The general half states the rule: every candidate accepted by the
selection loop satisfies `candAdmissible`. -/
theorem c2_amended_review_threshold :
    ((parse_product "https://example.com/item" none fc97 [] [] 0).1.currentPrice = "97") ∧
    (∀ cands r, pickCand cands = some r →
      ∃ c ∈ cands, r = (c.2.2.1, oldPriceOf c.1 c.2.2.1, c.1) ∧
        candAdmissible c = true) := by
  constructor
  · decide
  · intro cands r h
    induction cands with
    | nil => simp [pickCand] at h
    | cons c rest ih =>
      by_cases hc : candAdmissible c = true
      · simp only [pickCand, if_pos hc] at h
        injection h with h
        exact ⟨c, List.mem_cons_self c rest, h.symm, hc⟩
      · simp only [pickCand, if_neg hc] at h
        obtain ⟨c2, hm, he, ha⟩ := ih h
        exact ⟨c2, List.mem_cons_of_mem c hm, he, ha⟩

theorem c2_amended_review_threshold_witness :
    ∃ c ∈ [candW], ("200", oldPriceOf candW.1 "200", candW.1)
      = (c.2.2.1, oldPriceOf c.1 c.2.2.1, c.1) ∧ candAdmissible c = true :=
  c2_amended_review_threshold.2 [candW] ("200", oldPriceOf candW.1 "200", candW.1) rfl

/-- C2 (counterexample): the end-to-end scenario is false — on the page
whose only price-like text is "97 відгуків" the returned `currentPrice` is
"97", not the unknown sentinel (97 is not below the magnitude threshold
20, so the candidate is admissible despite the review keyword, which only
lowers its score). -/
theorem c2_counterexample :
    (parse_product "https://example.com/review-item" none fc97 [] [] 0).1.currentPrice
      = "97" ∧ ("97" : String) ≠ unknownPrice :=
  ⟨by decide, by decide⟩

/-- C1: the invariant is violated by the code.  On the digitless page
"Гарний магазин" (quick fetch raises, Playwright raises, requests
fallback succeeds) the assembled result has no price, so the final trust
gate judges it suspect; with no fresh cache entry and a non-sentinel name
the suspect branch falls through to the shared cache write, and the
suspect result IS stored in the Last-Known-Good cache. -/
theorem c1_suspect_result_cached :
    suspectFinal [] "https://shop.example.com/item1" none doc1 {} = true ∧
    (parse_product "https://shop.example.com/item1" none fc1 [] [] 5).1
      = ⟨"Гарний магазин", unknownPrice, none, false⟩ ∧
    (cacheLookup (parse_product "https://shop.example.com/item1" none fc1 [] [] 5).2.1
        "https://shop.example.com/item1").map (fun e => (e.name, e.currentPrice, e.inStock))
      = some ("Гарний магазин", unknownPrice, some false) :=
  ⟨by decide, by decide, by decide⟩

/-- C3: when the fetch pipeline raises (the `robust_fetch_core` result is
the exception outcome), `parse_product` still returns a response: the
fresh Last-Known-Good entry for the URL when one exists, otherwise the
sentinel result — no exception crosses the boundary. -/
theorem c3_exception_fallback (url : String) (cfg : Option DomainCfg) (fc : FetchCase)
    (cache : Cache) (reg reg1 : Registry) (now : ℤ)
    (h : robust_fetch_core url cfg fc (lastGoodFresh cache url now) reg
          = (Except.error (), reg1)) :
    parse_product url cfg fc cache reg now =
      ((match lastGoodFresh cache url now with
        | some e => cacheResponse e
        | none => sentinelResponse), cache, reg1) := by
  simp only [parse_product]
  rw [h]

theorem c3_exception_fallback_witness :
    parse_product "u" none fcErr [] [] 0 = (sentinelResponse, [], []) := by
  rw [c3_exception_fallback "u" none fcErr [] [] [] 0 rfl]
  rfl

/-- C4: a cache entry older than the TTL is treated as absent: the guarded
read returns none, and the response computed with the stale entry present
is the same as the response computed with the entry erased (all
consultation sites read through the same guarded view). -/
theorem c4_ttl_expiry (url : String) (cfg : Option DomainCfg) (fc : FetchCase)
    (cache : Cache) (reg : Registry) (now : ℤ) (e : CacheEntry)
    (hlook : cacheLookup cache url = some e)
    (hstale : LAST_GOOD_TTL < now - e.ts) :
    lastGoodFresh cache url now = none ∧
    (parse_product url cfg fc cache reg now).1
      = (parse_product url cfg fc (cacheErase url cache) reg now).1 := by
  have h1 : lastGoodFresh cache url now = none := lastGoodFresh_stale hlook hstale
  have h2 : lastGoodFresh (cacheErase url cache) url now = none := by
    unfold lastGoodFresh
    rw [cacheLookup_erase]
  refine ⟨h1, ?_⟩
  simp only [parse_product, h1, h2]
  rcases hrr : robust_fetch_core url cfg fc none reg with ⟨exc, reg1⟩
  cases exc with
  | error u => rfl
  | ok v =>
    obtain ⟨html, rest⟩ := v
    obtain ⟨d, ext⟩ := rest
    rfl

theorem c4_ttl_expiry_witness :
    lastGoodFresh cacheW "u" 604801 = none ∧
    (parse_product "u" none fcErr cacheW [] 604801).1
      = (parse_product "u" none fcErr (cacheErase "u" cacheW) [] 604801).1 :=
  c4_ttl_expiry "u" none fcErr cacheW [] 604801 entryW rfl (by decide)

/-- C10: the inStock policy.  The sentinel and error responses carry
`inStock = false`; a cache-fallback response reuses the cached value,
defaulting to true when absent; and on the successful non-error path,
when structured data supplied no availability and the suspect gate either
fails or falls through to the main write, `inStock` is true exactly when
`currentPrice` is not the unknown sentinel. -/
theorem c10_instock_policy :
    sentinelResponse.inStock = false ∧
    errorResponse.inStock = false ∧
    (∀ e : CacheEntry, (cacheResponse e).inStock = e.inStock.getD true) ∧
    (∀ url cfg html d ext lg reg now,
       earlyError html ext = false →
       (assemble cfg d ext).2.2.2 = none →
       (suspectFinal reg url cfg d ext = true →
         lg = none ∧
         ¬(finalNameOf cfg d ext = unknownName ∧ finalPriceOf cfg d ext = unknownPrice)) →
       (okBranch url cfg html d ext lg reg now).1.inStock
         = decide ((okBranch url cfg html d ext lg reg now).1.currentPrice
             ≠ unknownPrice)) ∧
    (∀ url cfg html d ext e reg now,
       earlyError html ext = false →
       suspectFinal reg url cfg d ext = true →
       (okBranch url cfg html d ext (some e) reg now).1 = cacheResponse e) := by
  refine ⟨rfl, rfl, fun e => rfl, ?_, ?_⟩
  · intro url cfg html d ext lg reg now hE hStock hSus
    have hpe : finalPriceOf cfg d ext ≠ "" := finalPriceOf_ne_empty cfg d ext
    by_cases hs : suspectFinal reg url cfg d ext = true
    · obtain ⟨hlg, hnb⟩ := hSus hs
      subst hlg
      simp [okBranch, hE, hs, hnb, hStock, finalStock, hpe]
    · simp [okBranch, hE, hs, hStock, finalStock, hpe]
  · intro url cfg html d ext e reg now hE hs
    simp [okBranch, hE, hs]

theorem c10_instock_policy_witness :
    (okBranch "u" none "x" emptyDoc extW none [] 0).1.inStock
      = decide ((okBranch "u" none "x" emptyDoc extW none [] 0).1.currentPrice
          ≠ unknownPrice) :=
  c10_instock_policy.2.2.2.1 "u" none "x" emptyDoc extW none [] 0 rfl rfl
    (fun _ => ⟨rfl, by decide⟩)
